import Mathlib

/-!
Verification of the reconciliation and linking engine of `hf-lms-sync`
(`internal/fsutils/fsutils.go` and the aggregate loops of `internal/ui/ui.go`).

The filesystem is shallowly embedded: a path is a list of components, a
filesystem is a finite association list from paths to nodes (regular file,
directory, or symbolic link) together with a set of paths on which metadata
access is denied (modelling permission errors).  Symbolic-link targets are
modelled as absolute paths.  `os.Stat` follows chains of symbolic links up to
the usual 40-hop resolution limit; `os.Lstat` does not follow; `os.Readlink`
returns the stored link target without checking that it resolves, exactly as
in Go.  Directory listings are returned sorted by name, as `ioutil.ReadDir`
and `filepath.WalkDir` do.  `time.Now().Format(time.RFC3339)` is modelled as
an opaque timestamp string passed as a parameter.  `os.RemoveAll` is modelled
as total removal of the subtree (its own rare failure modes are not needed by
any claim), and write-through of `WriteFile` on an existing symbolic link is
simplified to an in-place overwrite.
-/

namespace HfLmsSync

abbrev Path := List String

/-- Error kinds of the modelled filesystem calls.  `notExist` is the class
recognised by `os.IsNotExist`; `permission` models EACCES; the others model
ENOTDIR / EISDIR / EEXIST / ELOOP / EINVAL and wrapped `fmt.Errorf` values. -/
inductive FsError where
  | notExist
  | permission
  | notDir
  | isDir
  | fileExists
  | loop
  | invalid
  | other (msg : String)
deriving DecidableEq

/-- A filesystem node: regular file with contents, directory, or symbolic
link storing its target path. -/
inductive Node where
  | file (content : String)
  | dir
  | symlink (target : Path)
deriving DecidableEq

/-- The filesystem state: an association list from paths to nodes (the first
binding for a path wins) plus the set of paths whose metadata access is
denied with a permission error. -/
structure FS where
  entries : List (Path × Node)
  denied : List Path
deriving DecidableEq

def FS.find (fs : FS) (p : Path) : Option Node :=
  (fs.entries.find? (fun e => e.1 = p)).map (·.2)

/-- `os.Lstat`: node metadata without following a final symbolic link. -/
def lstat (fs : FS) (p : Path) : Except FsError Node :=
  if p ∈ fs.denied then .error .permission
  else match fs.find p with
    | some n => .ok n
    | none => .error .notExist

/-- Final-component symbolic-link resolution with fuel (the 40-hop limit). -/
def statFuel (fs : FS) : Nat → Path → Except FsError Node
  | 0, _ => .error .loop
  | fuel + 1, p =>
    match lstat fs p with
    | .ok (.symlink t) => statFuel fs fuel t
    | r => r

/-- `os.Stat`: follows symbolic links. -/
def stat (fs : FS) (p : Path) : Except FsError Node :=
  statFuel fs 40 p

def exOk {ε α : Type} : Except ε α → Bool
  | .ok _ => true
  | .error _ => false

/-- `os.Readlink`: returns the stored target of a symbolic link.  It does NOT
check that the target exists — reading a dangling link succeeds. -/
def readlink (fs : FS) (p : Path) : Except FsError Path :=
  if p ∈ fs.denied then .error .permission
  else match fs.find p with
    | some (.symlink t) => .ok t
    | some _ => .error .invalid
    | none => .error .notExist

/-- Resolve a chain of final-component symbolic links to the real path,
failing if the chain leaves the filesystem (`filepath.EvalSymlinks` requires
the path to exist). -/
def resolveFuel (fs : FS) : Nat → Path → Except FsError Path
  | 0, _ => .error .loop
  | fuel + 1, p =>
    if p ∈ fs.denied then .error .permission
    else match fs.find p with
      | some (.symlink t) => resolveFuel fs fuel t
      | some _ => .ok p
      | none => .error .notExist

/-- `filepath.EvalSymlinks`. -/
def evalSymlinks (fs : FS) (p : Path) : Except FsError Path :=
  resolveFuel fs 40 p

/-- Byte-wise lexicographic comparison of names, as Go compares strings when
sorting directory listings (`-` is a single-byte character, so a char-level
comparison agrees with the byte-level one on the names involved). -/
def charListLe : List Char → List Char → Bool
  | [], _ => true
  | _ :: _, [] => false
  | a :: as, b :: bs =>
    if a.toNat < b.toNat then true
    else if b.toNat < a.toNat then false
    else charListLe as bs

def strLe (a b : String) : Bool := charListLe a.data b.data

def insertSorted (x : String) : List String → List String
  | [] => [x]
  | y :: ys => if strLe x y then x :: y :: ys else y :: insertSorted x ys

/-- Insertion sort of directory-entry names (`ioutil.ReadDir` and
`filepath.WalkDir` return entries sorted by name). -/
def sortNames : List String → List String
  | [] => []
  | x :: xs => insertSorted x (sortNames xs)

/-- The immediate children of directory `q`, sorted by name with their stored
(`Lstat`-style) nodes, as `ioutil.ReadDir` reports them. -/
def childEntries (fs : FS) (q : Path) : List (String × Node) :=
  let names := ((fs.entries.map (·.1)).filterMap (fun k =>
    if k.dropLast = q ∧ k.length = q.length + 1 then k.getLast? else none)).dedup
  (sortNames names).filterMap (fun n =>
    (fs.find (q ++ [n])).map (fun nd => (n, nd)))

/-- `ioutil.ReadDir`: opens the directory (following symbolic links) and
lists its entries sorted by name. -/
def readDir (fs : FS) (p : Path) : Except FsError (List (String × Node)) :=
  if p ∈ fs.denied then .error .permission
  else match evalSymlinks fs p with
    | .error e => .error e
    | .ok q =>
      match fs.find q with
      | some .dir => .ok (childEntries fs q)
      | some _ => .error .notDir
      | none => .error .notExist

/-- Insert or overwrite the node stored at `p`. -/
def FS.insertNode (fs : FS) (p : Path) (n : Node) : FS :=
  { fs with entries := (p, n) :: fs.entries.filter (fun e => !decide (e.1 = p)) }

/-- `os.RemoveAll`: removes the node at `p` and everything below it. -/
def removeAll (fs : FS) (p : Path) : FS :=
  { fs with entries := fs.entries.filter (fun e => !p.isPrefixOf e.1) }

def mkdirAllAux (fs : FS) (base : Path) : List String → Except FsError FS
  | [] => .ok fs
  | c :: rest =>
    let q := base ++ [c]
    match stat fs q with
    | .ok .dir => mkdirAllAux fs q rest
    | .ok _ => .error .notDir
    | .error .notExist => mkdirAllAux (fs.insertNode q .dir) q rest
    | .error e => .error e

/-- `os.MkdirAll`: creates every missing directory along the path; an
existing non-directory along the way is an error. -/
def mkdirAll (fs : FS) (p : Path) : Except FsError FS :=
  mkdirAllAux fs [] p

/-- `os.Symlink target dst`: fails if `dst` already exists or its parent is
not a directory; otherwise records a symbolic-link node at `dst`. -/
def symlinkOp (fs : FS) (target dst : Path) : Except FsError FS :=
  match lstat fs dst with
  | .ok _ => .error .fileExists
  | .error .notExist =>
    match stat fs dst.dropLast with
    | .ok .dir => .ok (fs.insertNode dst (.symlink target))
    | .ok _ => .error .notDir
    | .error e => .error e
  | .error e => .error e

/-- `ioutil.WriteFile`: creates or truncates the file at `p` (the underlying
`O_CREATE` open fails when the parent is not an existing directory or when
`p` is a directory). -/
def writeFile (fs : FS) (p : Path) (content : String) : Except FsError FS :=
  if p ∈ fs.denied then .error .permission
  else match stat fs p.dropLast with
    | .ok .dir =>
      match fs.find p with
      | some .dir => .error .isDir
      | _ => .ok (fs.insertNode p (.file content))
    | .ok _ => .error .notDir
    | .error e => .error e

/-- The sentinel marker file name (`metadataFile = ".hf-lms-sync"`). -/
def metadataFile : String := ".hf-lms-sync"

/-- The snapshots subdirectory name (`snapshotsDir = "snapshots"`). -/
def snapshotsDir : String := "snapshots"

/-- `fsutils.ModelInfo`. -/
structure ModelInfo where
  cacheDirName : String
  organizationName : String
  modelName : String
  sourcePath : Path
  targetPath : Path
  isLinked : Bool
  isStale : Bool
  staleReason : String
deriving DecidableEq

/-- `verifySymlinks`: reads the directory; on a read error reports `false`;
otherwise checks each symbolic-link entry with `os.Readlink`. -/
def verifySymlinks (fs : FS) (dir : Path) : Bool :=
  match readDir fs dir with
  | .error _ => false
  | .ok entries =>
    entries.all (fun e =>
      match e.2 with
      | .symlink _ => exOk (readlink fs (dir ++ [e.1]))
      | _ => true)

/-- `strings.Split` on the separator `"--"`, on character lists: scan left to
right, cutting at each non-overlapping occurrence of the separator. -/
def splitDD : List Char → List (List Char)
  | [] => [[]]
  | '-' :: '-' :: rest => [] :: splitDD rest
  | c :: rest =>
    match splitDD rest with
    | seg :: segs => (c :: seg) :: segs
    | [] => [[c]]

/-- `strings.Split (s, "--")`. -/
def splitParts (s : String) : List String := (splitDD s.data).map String.mk

/-- The per-entry body of the `LoadModels` loop: entries that are not
directories or whose name does not contain the `--` separator are skipped
(`strings.Contains (name, sep)` holds exactly when the split yields at least
two parts, which also subsumes the `len(parts) < 2` re-check; organization
and model name are `parts[len-2]` and `parts[len-1]`, i.e. the first two
elements of the reversed part list). -/
def loadModelEntry (fs : FS) (hfCache targetDir : Path) (e : String × Node) :
    Option ModelInfo :=
  if e.2 = Node.dir then
    match (splitParts e.1).reverse with
    | modelName :: organization :: _ =>
      let targetPath := targetDir ++ [organization, modelName]
      some
        { cacheDirName := e.1
          organizationName := organization
          modelName := modelName
          sourcePath := hfCache ++ [e.1]
          targetPath := targetPath
          isLinked :=
            if exOk (stat fs (targetPath ++ [metadataFile])) then
              verifySymlinks fs targetPath
            else false
          isStale := false
          staleReason := "" }
    | _ => none
  else none

/-- `LoadModels`: the HuggingFace cache root (`GetHfCacheDir`, which only
consults the environment) is modelled as the parameter `hfCache`. -/
def LoadModels (fs : FS) (hfCache targetDir : Path) :
    Except FsError (List ModelInfo) :=
  match stat fs hfCache with
  | .ok .dir =>
    match stat fs targetDir with
    | .ok .dir =>
      match readDir fs hfCache with
      | .error e => .error e
      | .ok entries => .ok (entries.filterMap (loadModelEntry fs hfCache targetDir))
    | _ => .error (.other "Target directory does not exist or is not a directory")
  | _ => .error (.other "HuggingFace cache directory does not exist or is not a directory")

/-- `filepath.Base` on a component list (the last component). -/
def baseName (p : Path) : String := p.getLast?.getD "."

/-- The body of the `FindStaleLinks` walk callback on a visited directory:
if the directory holds the marker file, rebuild the expected cache-directory
name as `"models--" ++ organization ++ "--" ++ modelName` from the last two
path components and report a stale record when `os.Stat` of the rebuilt
snapshot path fails with `IsNotExist`. -/
def staleCheck (fs : FS) (hfCache : Path) (path : Path) : Option ModelInfo :=
  if exOk (stat fs (path ++ [metadataFile])) then
    let organization := baseName path.dropLast
    let modelName := baseName path
    let cacheDirName := "models--" ++ organization ++ "--" ++ modelName
    let sourcePath := hfCache ++ [cacheDirName, snapshotsDir]
    match stat fs sourcePath with
    | .error .notExist =>
      some
        { cacheDirName := cacheDirName
          organizationName := organization
          modelName := modelName
          sourcePath := sourcePath
          targetPath := path
          isLinked := true
          isStale := true
          staleReason := "Source directory not found" }
    | _ => none
  else none

/-- Walk a list of directory entries in order, aborting at the first child
whose subtree walk reports an error, as `filepath.WalkDir` does when the
callback returns the error it was handed. -/
def walkEntriesWith (f : Path → Node → List ModelInfo × Option FsError)
    (p : Path) : List (String × Node) → List ModelInfo × Option FsError
  | [] => ([], none)
  | (n, nd) :: rest =>
    match f (p ++ [n]) nd with
    | (recs, some e) => (recs, some e)
    | (recs, none) =>
      let r2 := walkEntriesWith f p rest
      (recs ++ r2.1, r2.2)

/-- The recursive walk of `filepath.WalkDir` with the `FindStaleLinks`
callback: visits a directory (appending its stale record, if any), then its
entries in sorted order; a directory read error is handed to the callback,
which returns it and thereby aborts the whole walk.  Non-directories are not
descended into (`WalkDir` does not follow symbolic links). -/
def walkAux (fs : FS) (hfCache : Path) : Nat → Path → Node →
    List ModelInfo × Option FsError
  | 0, _, _ => ([], some (.other "walk depth exhausted"))
  | fuel' + 1, p, node =>
    match node with
    | .dir =>
      let base := (staleCheck fs hfCache p).toList
      match readDir fs p with
      | .error e => (base, some e)
      | .ok entries =>
        let r := walkEntriesWith (fun q nd => walkAux fs hfCache fuel' q nd) p entries
        (base ++ r.1, r.2)
    | _ => ([], none)

/-- An upper bound on the length of any path stored in the filesystem; the
walk can never descend deeper, so `fsMaxKeyLen fs + 1` is always enough fuel. -/
def fsMaxKeyLen (fs : FS) : Nat :=
  fs.entries.foldr (fun e acc => max e.1.length acc) 0

/-- `FindStaleLinks`: `filepath.WalkDir` starts from `os.Lstat` of the root
and hands a root-stat error to the callback, which returns it.  The Go
function returns the accumulated slice together with the walk error. -/
def FindStaleLinks (fs : FS) (hfCache targetDir : Path) :
    List ModelInfo × Option FsError :=
  match lstat fs targetDir with
  | .error e => ([], some e)
  | .ok node => walkAux fs hfCache (fsMaxKeyLen fs + 1) targetDir node

/-- The inner file loop of `LinkModel` over one snapshot listing: resolve the
real file behind each source entry and create a symbolic link to it in the
target directory. -/
def linkFiles (fs : FS) (m : ModelInfo) (snapPath : Path) :
    List (String × Node) → Except FsError FS
  | [] => .ok fs
  | (fileName, _) :: rest =>
    let src := snapPath ++ [fileName]
    let dst := m.targetPath ++ [fileName]
    match evalSymlinks fs src with
    | .error _ => .error (.other "failed to resolve symlink")
    | .ok realSource =>
      match symlinkOp fs realSource dst with
      | .error _ => .error (.other "failed to create symlink")
      | .ok fs' => linkFiles fs' m snapPath rest

/-- The outer snapshot loop of `LinkModel`: every snapshot subdirectory is
listed in turn (non-directories are skipped) and its files are linked. -/
def linkSnapshots (fs : FS) (m : ModelInfo) (snapshotsPath : Path) :
    List (String × Node) → Except FsError FS
  | [] => .ok fs
  | (snapName, snapNode) :: rest =>
    if snapNode = Node.dir then
      let snapPath := snapshotsPath ++ [snapName]
      match readDir fs snapPath with
      | .error e => .error e
      | .ok files =>
        match linkFiles fs m snapPath files with
        | .error e => .error e
        | .ok fs' => linkSnapshots fs' m snapshotsPath rest
    else linkSnapshots fs m snapshotsPath rest

/-- `LinkModel`: `now` stands for `time.Now().Format(time.RFC3339)`. -/
def LinkModel (fs : FS) (m : ModelInfo) (now : String) : Except FsError FS :=
  match stat fs m.sourcePath with
  | .ok .dir =>
    let snapshotsPath := m.sourcePath ++ [snapshotsDir]
    match stat fs snapshotsPath with
    | .ok .dir =>
      match readDir fs snapshotsPath with
      | .error e => .error e
      | .ok snapshotDirs =>
        let fs1 := if exOk (stat fs m.targetPath) then removeAll fs m.targetPath else fs
        match mkdirAll fs1 m.targetPath with
        | .error e => .error e
        | .ok fs2 =>
          match linkSnapshots fs2 m (m.sourcePath ++ [snapshotsDir]) snapshotDirs with
          | .error e => .error e
          | .ok fs3 => writeFile fs3 (m.targetPath ++ [metadataFile]) now
    | _ => .error (.other "snapshots directory does not exist")
  | _ => .error (.other "source path does not exist or is not a directory")

/-- `UnlinkModel`: removes the target directory only when `os.Stat` of the
marker file succeeds; any stat failure is a silent success.  (`os.RemoveAll`
is modelled as always succeeding.) -/
def UnlinkModel (fs : FS) (m : ModelInfo) : Except FsError FS :=
  let metadataPath := m.targetPath ++ [metadataFile]
  if exOk (stat fs metadataPath) then .ok (removeAll fs m.targetPath)
  else .ok fs

/-- The loop body of `linkAllCmd` (ui.go): link only records with
`!m.IsLinked`; a per-item error leaves the state and count unchanged. -/
def linkStep (now : String) (st : FS × Nat) (m : ModelInfo) : FS × Nat :=
  if m.isLinked = false then
    match LinkModel st.1 m now with
    | .error _ => st
    | .ok fs' => (fs', st.2 + 1)
  else st

/-- `linkAllCmd`: sequential fold over all records, counting successes. -/
def linkAllCmd (fs : FS) (models : List ModelInfo) (now : String) : FS × Nat :=
  models.foldl (linkStep now) (fs, 0)

/-- The loop body of `unlinkAllCmd`: unlink only records with `m.IsLinked`. -/
def unlinkStep (st : FS × Nat) (m : ModelInfo) : FS × Nat :=
  if m.isLinked = true then
    match UnlinkModel st.1 m with
    | .error _ => st
    | .ok fs' => (fs', st.2 + 1)
  else st

/-- `unlinkAllCmd`: sequential fold over all records, counting successes. -/
def unlinkAllCmd (fs : FS) (models : List ModelInfo) : FS × Nat :=
  models.foldl unlinkStep (fs, 0)

/-- The loop body of `purgeAllCmd`: unlink every record. -/
def purgeStep (st : FS × Nat) (m : ModelInfo) : FS × Nat :=
  match UnlinkModel st.1 m with
  | .error _ => st
  | .ok fs' => (fs', st.2 + 1)

/-- `purgeAllCmd`: sequential fold over all stale records. -/
def purgeAllCmd (fs : FS) (stale : List ModelInfo) : FS × Nat :=
  stale.foldl purgeStep (fs, 0)

/-- Wellformedness of a filesystem snapshot: stored paths are distinct and
every proper ancestor of a stored path is itself stored as a directory. -/
def FS.WF (fs : FS) : Prop :=
  (fs.entries.map (·.1)).Nodup ∧
  ∀ p ∈ fs.entries.map (·.1), ∀ i ∈ List.range p.length, 0 < i →
    fs.find (p.take i) = some Node.dir

instance (fs : FS) : Decidable fs.WF := by
  unfold FS.WF; infer_instance

instance {ε α : Type} [DecidableEq ε] [DecidableEq α] : DecidableEq (Except ε α) := fun x y =>
  match x, y with
  | .ok a, .ok b =>
    if h : a = b then .isTrue (by rw [h])
    else .isFalse (fun hc => h (by injection hc))
  | .error a, .error b =>
    if h : a = b then .isTrue (by rw [h])
    else .isFalse (fun hc => h (by injection hc))
  | .ok _, .error _ => .isFalse (fun hc => by injection hc)
  | .error _, .ok _ => .isFalse (fun hc => by injection hc)

/-- The path stores a non-symlink node — the shape of a fully resolved
(`EvalSymlinks`) target. -/
def goodTarget (fs : FS) (t : Path) : Prop :=
  ∃ nd, fs.find t = some nd ∧ ∀ u, nd ≠ Node.symlink u

/-- Invariant maintained while `LinkModel` populates the target directory:
everything stored strictly below the target path is an immediate child
holding a symbolic link whose target is a stored non-symlink node. -/
def underInv (fs : FS) (tp : Path) : Prop :=
  ∀ k nd, fs.find k = some nd → tp.isPrefixOf k = true → k ≠ tp →
    ∃ name t, k = tp ++ [name] ∧ nd = Node.symlink t ∧ goodTarget fs t

/-! Concrete filesystem snapshots used to evaluate the engine on closed
inputs.  `hfRoot` plays the HuggingFace cache root and `lmsRoot` the LM
Studio models root. -/

def hfRoot : Path := ["hf"]

def lmsRoot : Path := ["lms"]

def linkTs : String := "2024-01-01T00:00:00Z"

/-- A cache with one artifact `models--org--model` holding one snapshot file
(a symbolic link into a blob store), and an empty target root. -/
def fs0 : FS :=
  { entries := [
      (["hf"], .dir),
      (["hf", "models--org--model"], .dir),
      (["hf", "models--org--model", "snapshots"], .dir),
      (["hf", "models--org--model", "snapshots", "v1"], .dir),
      (["hf", "models--org--model", "snapshots", "v1", "dummy.txt"],
        .symlink ["blobs", "b1"]),
      (["blobs"], .dir),
      (["blobs", "b1"], .file "hello"),
      (["lms"], .dir)],
    denied := [] }

def m0 : ModelInfo :=
  { cacheDirName := "models--org--model", organizationName := "org",
    modelName := "model", sourcePath := ["hf", "models--org--model"],
    targetPath := ["lms", "org", "model"], isLinked := false, isStale := false,
    staleReason := "" }

/-- The state after linking `m0` in `fs0`. -/
def fs0link : FS := ((LinkModel fs0 m0 linkTs).toOption).getD fs0

/-- `fs0` with an existing target directory that carries no marker file but
holds a user file `precious`. -/
def fsPre : FS :=
  { entries := fs0.entries ++ [
      (["lms", "org"], .dir),
      (["lms", "org", "model"], .dir),
      (["lms", "org", "model", "precious"], .file "data")],
    denied := [] }

/-- A target directory carrying the marker and one dangling symbolic link. -/
def fsBroken : FS :=
  { entries := [
      (["hf"], .dir),
      (["hf", "models--a--b"], .dir),
      (["lms"], .dir),
      (["lms", "a"], .dir),
      (["lms", "a", "b"], .dir),
      (["lms", "a", "b", ".hf-lms-sync"], .file "x"),
      (["lms", "a", "b", "w"], .symlink ["gone"])],
    denied := [] }

def brokenRec : ModelInfo :=
  { cacheDirName := "models--a--b", organizationName := "a", modelName := "b",
    sourcePath := ["hf", "models--a--b"], targetPath := ["lms", "a", "b"],
    isLinked := true, isStale := false, staleReason := "" }

/-- A target tree with one genuinely stale marked directory `lms/a/m` and a
later sibling directory `lms/b` whose listing is permission-denied. -/
def fsWalkErr : FS :=
  { entries := [
      (["hf"], .dir),
      (["lms"], .dir),
      (["lms", "a"], .dir),
      (["lms", "a", "m"], .dir),
      (["lms", "a", "m", ".hf-lms-sync"], .file "x"),
      (["lms", "b"], .dir)],
    denied := [["lms", "b"]] }

def staleRecA : ModelInfo :=
  { cacheDirName := "models--a--m", organizationName := "a", modelName := "m",
    sourcePath := ["hf", "models--a--m", "snapshots"],
    targetPath := ["lms", "a", "m"], isLinked := true, isStale := true,
    staleReason := "Source directory not found" }

/-- A marker file that exists but whose metadata cannot be read. -/
def fsDeniedMark : FS :=
  { entries := [
      (["lms"], .dir),
      (["lms", "org"], .dir),
      (["lms", "org", "model"], .dir),
      (["lms", "org", "model", ".hf-lms-sync"], .file "x"),
      (["lms", "org", "model", "w"], .file "data")],
    denied := [["lms", "org", "model", ".hf-lms-sync"]] }

/-- An artifact with provider prefix `spaces` instead of `models`. -/
def mSpaces : ModelInfo :=
  { cacheDirName := "spaces--org--model", organizationName := "org",
    modelName := "model", sourcePath := ["hf", "spaces--org--model"],
    targetPath := ["lms", "org", "model"], isLinked := false, isStale := false,
    staleReason := "" }

def fsSp : FS :=
  { entries := [
      (["hf"], .dir),
      (["hf", "spaces--org--model"], .dir),
      (["hf", "spaces--org--model", "snapshots"], .dir),
      (["hf", "spaces--org--model", "snapshots", "v1"], .dir),
      (["hf", "spaces--org--model", "snapshots", "v1", "f.bin"], .file "w"),
      (["lms"], .dir)],
    denied := [] }

/-- The state after linking the `spaces`-prefixed artifact. -/
def fsSpLink : FS := ((LinkModel fsSp mSpaces linkTs).toOption).getD fsSp

def spStaleRec : ModelInfo :=
  { cacheDirName := "models--org--model", organizationName := "org",
    modelName := "model", sourcePath := ["hf", "models--org--model", "snapshots"],
    targetPath := ["lms", "org", "model"], isLinked := true, isStale := true,
    staleReason := "Source directory not found" }

/-- `m0` flagged as already linked. -/
def m0linked : ModelInfo :=
  { m0 with isLinked := true }

/-- A record whose source is missing, so `LinkModel` fails on it. -/
def mBad : ModelInfo :=
  { cacheDirName := "models--x--y", organizationName := "x", modelName := "y",
    sourcePath := ["hf", "missing"], targetPath := ["lms", "x", "y"],
    isLinked := false, isStale := false, staleReason := "" }

/-! Basic lemmas about the filesystem model. -/

theorem isPrefixOf_iff_exists (p k : Path) :
    p.isPrefixOf k = true ↔ ∃ t, p ++ t = k := by
  induction p generalizing k with
  | nil => simp [List.isPrefixOf]
  | cons a as ih =>
    cases k with
    | nil => simp [List.isPrefixOf]
    | cons b bs =>
      simp only [List.isPrefixOf, Bool.and_eq_true, beq_iff_eq, ih, List.cons_append,
        List.cons.injEq]
      constructor
      · rintro ⟨rfl, t, rfl⟩; exact ⟨t, rfl, rfl⟩
      · rintro ⟨t, rfl, rfl⟩; exact ⟨rfl, t, rfl⟩

theorem isPrefixOf_refl (p : Path) : p.isPrefixOf p = true :=
  (isPrefixOf_iff_exists p p).2 ⟨[], by simp⟩

theorem isPrefixOf_append (p t : Path) : p.isPrefixOf (p ++ t) = true :=
  (isPrefixOf_iff_exists p (p ++ t)).2 ⟨t, rfl⟩

theorem length_le_of_isPrefixOf {p k : Path} (h : p.isPrefixOf k = true) :
    p.length ≤ k.length := by
  obtain ⟨t, rfl⟩ := (isPrefixOf_iff_exists p k).1 h
  simp

theorem eq_of_isPrefixOf_of_length {p k : Path} (h : p.isPrefixOf k = true)
    (hl : k.length ≤ p.length) : p = k := by
  obtain ⟨t, rfl⟩ := (isPrefixOf_iff_exists p k).1 h
  have : t = [] := by
    cases t with
    | nil => rfl
    | cons x xs => simp at hl
  simp [this]

theorem find?_filter_ne (es : List (Path × Node)) (p k : Path) (h : ¬ k = p) :
    (es.filter (fun e => !decide (e.1 = p))).find? (fun e => decide (e.1 = k)) =
    es.find? (fun e => decide (e.1 = k)) := by
  induction es with
  | nil => rfl
  | cons e es ih =>
    by_cases he : e.1 = p
    · rw [List.filter_cons_of_neg (by simp [he]), ih,
        List.find?_cons_of_neg _ (by simp [he]; exact fun hc => h hc.symm)]
    · by_cases hk : e.1 = k
      · rw [List.filter_cons_of_pos (by simp [he]),
          List.find?_cons_of_pos _ (by simp [hk]), List.find?_cons_of_pos _ (by simp [hk])]
      · rw [List.filter_cons_of_pos (by simp [he]),
          List.find?_cons_of_neg _ (by simp [hk]), List.find?_cons_of_neg _ (by simp [hk]), ih]

theorem FS.find_insertNode (fs : FS) (p : Path) (n : Node) (k : Path) :
    (fs.insertNode p n).find k = if k = p then some n else fs.find k := by
  unfold FS.insertNode FS.find
  by_cases h : k = p
  · subst h; rw [List.find?_cons_of_pos _ (by simp)]; simp
  · simp only [if_neg h]
    rw [List.find?_cons_of_neg _ (by simp; exact fun hc => h hc.symm),
      find?_filter_ne fs.entries p k h]

theorem find?_filter_notPref (es : List (Path × Node)) (p k : Path) :
    (es.filter (fun e => !p.isPrefixOf e.1)).find? (fun e => decide (e.1 = k)) =
    (if p.isPrefixOf k = true then none else es.find? (fun e => decide (e.1 = k))) := by
  induction es with
  | nil => simp
  | cons e es ih =>
    by_cases hp : p.isPrefixOf e.1 = true
    · rw [List.filter_cons_of_neg (by simp [hp]), ih]
      by_cases hk : p.isPrefixOf k = true
      · simp [hk]
      · have hek : ¬ e.1 = k := fun hc => hk (hc ▸ hp)
        rw [if_neg hk, if_neg hk, List.find?_cons_of_neg _ (by simp [hek])]
    · rw [List.filter_cons_of_pos (by simp [hp])]
      by_cases hek : e.1 = k
      · have hk : ¬ p.isPrefixOf k = true := fun hc => hp (hek ▸ hc)
        rw [if_neg hk, List.find?_cons_of_pos _ (by simp [hek]),
          List.find?_cons_of_pos _ (by simp [hek])]
      · rw [List.find?_cons_of_neg _ (by simp [hek]), ih]
        by_cases hk : p.isPrefixOf k = true
        · simp [hk]
        · rw [if_neg hk, if_neg hk, List.find?_cons_of_neg _ (by simp [hek])]

theorem FS.find_removeAll (fs : FS) (p : Path) (k : Path) :
    (removeAll fs p).find k = if p.isPrefixOf k = true then none else fs.find k := by
  unfold removeAll FS.find
  rw [find?_filter_notPref fs.entries p k]
  by_cases hk : p.isPrefixOf k = true <;> simp [hk]

theorem FS.denied_insertNode (fs : FS) (p : Path) (n : Node) :
    (fs.insertNode p n).denied = fs.denied := rfl

theorem FS.denied_removeAll (fs : FS) (p : Path) :
    (removeAll fs p).denied = fs.denied := rfl

theorem lstat_eq_ok_iff (fs : FS) (p : Path) (n : Node) :
    lstat fs p = .ok n ↔ p ∉ fs.denied ∧ fs.find p = some n := by
  unfold lstat
  by_cases h : p ∈ fs.denied
  · simp [h]
  · simp only [if_neg h]
    cases hf : fs.find p <;> simp [h, hf]

theorem statFuel_succ (fs : FS) (fuel : Nat) (p : Path) :
    statFuel fs (fuel + 1) p =
      match lstat fs p with
      | .ok (.symlink t) => statFuel fs fuel t
      | r => r := rfl

theorem stat_eq (fs : FS) (p : Path) :
    stat fs p =
      match lstat fs p with
      | .ok (.symlink t) => statFuel fs 39 t
      | r => r := rfl

theorem stat_of_find_not_symlink {fs : FS} {p : Path} {n : Node}
    (hf : fs.find p = some n) (hn : ∀ t, n ≠ Node.symlink t) (hd : p ∉ fs.denied) :
    stat fs p = .ok n := by
  have hl : lstat fs p = .ok n := (lstat_eq_ok_iff fs p n).2 ⟨hd, hf⟩
  rw [stat_eq, hl]
  cases n with
  | file c => rfl
  | dir => rfl
  | symlink t => exact absurd rfl (hn t)

theorem lstat_error_of_find_none {fs : FS} {p : Path} (hf : fs.find p = none) :
    ∃ e, lstat fs p = .error e := by
  unfold lstat
  by_cases h : p ∈ fs.denied
  · exact ⟨.permission, by simp [h]⟩
  · exact ⟨.notExist, by simp [h, hf]⟩

theorem stat_error_of_find_none {fs : FS} {p : Path} (hf : fs.find p = none) :
    ∃ e, stat fs p = .error e := by
  obtain ⟨e, he⟩ := lstat_error_of_find_none hf
  exact ⟨e, by rw [stat_eq, he]⟩

theorem stat_denied {fs : FS} {p : Path} (h : p ∈ fs.denied) :
    stat fs p = .error .permission := by
  have hl : lstat fs p = .error .permission := by unfold lstat; simp [h]
  rw [stat_eq, hl]

theorem stat_notExist_of_find_none {fs : FS} {p : Path} (hf : fs.find p = none)
    (hd : p ∉ fs.denied) : stat fs p = .error .notExist := by
  have hl : lstat fs p = .error .notExist := by unfold lstat; simp [hd, hf]
  rw [stat_eq, hl]

theorem resolveFuel_good {fs : FS} {fuel : Nat} {p q : Path}
    (h : resolveFuel fs fuel p = .ok q) :
    q ∉ fs.denied ∧ ∃ nd, fs.find q = some nd ∧ ∀ t, nd ≠ Node.symlink t := by
  induction fuel generalizing p with
  | zero => simp [resolveFuel] at h
  | succ fuel ih =>
    unfold resolveFuel at h
    by_cases hd : p ∈ fs.denied
    · simp [hd] at h
    · simp only [if_neg hd] at h
      cases hf : fs.find p with
      | none => rw [hf] at h; exact absurd h (by simp)
      | some nd =>
        rw [hf] at h
        cases nd with
        | symlink t => exact ih h
        | file c =>
          have hq : p = q := by simpa using h
          subst hq
          exact ⟨hd, .file c, hf, fun t => by simp⟩
        | dir =>
          have hq : p = q := by simpa using h
          subst hq
          exact ⟨hd, .dir, hf, fun t => by simp⟩

theorem evalSymlinks_good {fs : FS} {p q : Path}
    (h : evalSymlinks fs p = .ok q) :
    q ∉ fs.denied ∧ ∃ nd, fs.find q = some nd ∧ ∀ t, nd ≠ Node.symlink t :=
  resolveFuel_good h

theorem exOk_error {ε α : Type} (e : ε) : exOk (Except.error e : Except ε α) = false := rfl

theorem exOk_ok {ε α : Type} (a : α) : exOk (Except.ok a : Except ε α) = true := rfl

theorem exOk_true_iff {ε α : Type} (x : Except ε α) : exOk x = true ↔ ∃ a, x = .ok a := by
  cases x <;> simp [exOk]

/-! Lemmas about `UnlinkModel`. -/

theorem unlinkModel_eq (fs : FS) (m : ModelInfo) :
    UnlinkModel fs m =
      if exOk (stat fs (m.targetPath ++ [metadataFile])) then .ok (removeAll fs m.targetPath)
      else .ok fs := rfl

theorem unlinkModel_of_stat_error {fs : FS} {m : ModelInfo} {e : FsError}
    (h : stat fs (m.targetPath ++ [metadataFile]) = .error e) :
    UnlinkModel fs m = .ok fs := by
  rw [unlinkModel_eq, h]
  rfl

theorem unlinkModel_of_find_none {fs : FS} {m : ModelInfo}
    (h : fs.find (m.targetPath ++ [metadataFile]) = none) :
    UnlinkModel fs m = .ok fs := by
  obtain ⟨e, he⟩ := stat_error_of_find_none h
  exact unlinkModel_of_stat_error he

theorem unlinkModel_of_stat_ok {fs : FS} {m : ModelInfo}
    (h : exOk (stat fs (m.targetPath ++ [metadataFile])) = true) :
    UnlinkModel fs m = .ok (removeAll fs m.targetPath) := by
  rw [unlinkModel_eq, h]
  rfl

theorem removeAll_find_none (fs : FS) (p : Path) {k : Path}
    (h : p.isPrefixOf k = true) : (removeAll fs p).find k = none := by
  rw [FS.find_removeAll, if_pos h]

/-! Soundness of the `FindStaleLinks` walk: every returned record is the
stale record of some marker-bearing directory whose rebuilt source snapshot
path is missing. -/

theorem staleCheck_some {fs : FS} {hf q : Path} {r : ModelInfo}
    (h : staleCheck fs hf q = some r) :
    r.targetPath = q ∧
    r.organizationName = baseName q.dropLast ∧
    r.modelName = baseName q ∧
    r.cacheDirName = "models--" ++ baseName q.dropLast ++ "--" ++ baseName q ∧
    r.sourcePath = hf ++ [r.cacheDirName, snapshotsDir] ∧
    r.isStale = true ∧ r.isLinked = true ∧
    r.staleReason = "Source directory not found" ∧
    exOk (stat fs (q ++ [metadataFile])) = true ∧
    stat fs (hf ++ [r.cacheDirName, snapshotsDir]) = .error .notExist := by
  unfold staleCheck at h
  dsimp only at h
  by_cases hm : exOk (stat fs (q ++ [metadataFile])) = true
  · rw [if_pos hm] at h
    cases hs : stat fs (hf ++ ["models--" ++ baseName q.dropLast ++ "--" ++ baseName q,
        snapshotsDir]) with
    | ok nd => rw [hs] at h; cases nd <;> simp at h
    | error e =>
      rw [hs] at h
      cases e with
      | notExist =>
        simp at h
        subst h
        exact ⟨rfl, rfl, rfl, rfl, rfl, rfl, rfl, rfl, hm, hs⟩
      | permission => simp at h
      | notDir => simp at h
      | isDir => simp at h
      | fileExists => simp at h
      | loop => simp at h
      | invalid => simp at h
      | other msg => simp at h
  · rw [if_neg hm] at h
    simp at h

theorem staleCheck_eq_some_of {fs : FS} {hf q : Path}
    (hm : exOk (stat fs (q ++ [metadataFile])) = true)
    (hs : stat fs (hf ++ ["models--" ++ baseName q.dropLast ++ "--" ++ baseName q,
      snapshotsDir]) = .error .notExist) :
    staleCheck fs hf q = some
      { cacheDirName := "models--" ++ baseName q.dropLast ++ "--" ++ baseName q
        organizationName := baseName q.dropLast
        modelName := baseName q
        sourcePath := hf ++ ["models--" ++ baseName q.dropLast ++ "--" ++ baseName q,
          snapshotsDir]
        targetPath := q
        isLinked := true
        isStale := true
        staleReason := "Source directory not found" } := by
  unfold staleCheck
  dsimp only
  rw [if_pos hm, hs]

theorem walkEntriesWith_mem {f : Path → Node → List ModelInfo × Option FsError}
    {p : Path} {l : List (String × Node)} {r : ModelInfo}
    (h : r ∈ (walkEntriesWith f p l).1) :
    ∃ n nd, (n, nd) ∈ l ∧ r ∈ (f (p ++ [n]) nd).1 := by
  induction l with
  | nil => simp [walkEntriesWith] at h
  | cons e rest ih =>
    obtain ⟨n, nd⟩ := e
    cases hfr : f (p ++ [n]) nd with
    | mk recs err =>
      cases err with
      | some e' =>
        rw [walkEntriesWith, hfr] at h
        exact ⟨n, nd, List.mem_cons_self _ _, by rw [hfr]; exact h⟩
      | none =>
        rw [walkEntriesWith, hfr] at h
        rcases List.mem_append.1 h with h1 | h2
        · exact ⟨n, nd, List.mem_cons_self _ _, by rw [hfr]; exact h1⟩
        · obtain ⟨n', nd', hmem, hr⟩ := ih h2
          exact ⟨n', nd', List.mem_cons_of_mem _ hmem, hr⟩

theorem walkAux_mem {fs : FS} {hf : Path} {fuel : Nat} {p : Path} {node : Node}
    {r : ModelInfo} (h : r ∈ (walkAux fs hf fuel p node).1) :
    ∃ q, staleCheck fs hf q = some r := by
  induction fuel generalizing p node with
  | zero => simp [walkAux] at h
  | succ fuel ih =>
    cases node with
    | file c => simp [walkAux] at h
    | symlink t => simp [walkAux] at h
    | dir =>
      rw [walkAux] at h
      cases hrd : readDir fs p with
      | error e =>
        rw [hrd] at h
        simp only at h
        cases hsc : staleCheck fs hf p with
        | none => rw [hsc] at h; simp [Option.toList] at h
        | some rec =>
          rw [hsc] at h
          simp [Option.toList] at h
          exact ⟨p, by rw [hsc, h]⟩
      | ok entries =>
        rw [hrd] at h
        simp only at h
        rcases List.mem_append.1 h with h1 | h2
        · cases hsc : staleCheck fs hf p with
          | none => rw [hsc] at h1; simp [Option.toList] at h1
          | some rec =>
            rw [hsc] at h1
            simp [Option.toList] at h1
            exact ⟨p, by rw [hsc, h1]⟩
        · obtain ⟨n, nd, _, hr⟩ := walkEntriesWith_mem h2
          exact ih hr

theorem findStaleLinks_sound {fs : FS} {hf tgt : Path} {r : ModelInfo}
    (h : r ∈ (FindStaleLinks fs hf tgt).1) :
    ∃ q, staleCheck fs hf q = some r := by
  unfold FindStaleLinks at h
  cases hl : lstat fs tgt with
  | error e => rw [hl] at h; simp at h
  | ok node => rw [hl] at h; exact walkAux_mem h

/-! Claim theorems. -/

/-- C1: the claim says a target directory containing a broken symbolic link is
never reported with `isLinked = true`; the code checks links with
`os.Readlink`, which succeeds on a dangling link, so `LoadModels` reports
`isLinked = true` for a marked target directory whose symbolic link `w` does
not resolve.  This contradicts the stated intent of `verifySymlinks`
("checks if all symlinks in a directory are valid"). -/
theorem c1_broken_symlink_reported_linked :
    LoadModels fsBroken hfRoot lmsRoot = .ok [brokenRec] ∧
    brokenRec.isLinked = true ∧
    lstat fsBroken (brokenRec.targetPath ++ ["w"]) = .ok (.symlink ["gone"]) ∧
    evalSymlinks fsBroken (brokenRec.targetPath ++ ["w"]) = .error .notExist :=
  ⟨by decide, by decide, by decide, by decide⟩

/-- C2 counterexample: `LinkModel` removes an existing target directory even
when it carries no marker file: the markerless directory `lms/org/model`
holding `precious` is wiped by a successful `Link`. -/
theorem c2_counterexample :
    fsPre.find (m0.targetPath ++ [metadataFile]) = none ∧
    fsPre.find (m0.targetPath ++ ["precious"]) = some (.file "data") ∧
    exOk (LinkModel fsPre m0 linkTs) = true ∧
    ((LinkModel fsPre m0 linkTs).toOption.getD fsPre).find
      (m0.targetPath ++ ["precious"]) = none :=
  ⟨by decide, by decide, by decide, by decide⟩

/-- C2 (amended): a target directory lacking the marker file is never deleted
by `Unlink` and never listed by `DiscoverStaleLinks` (every stale record's
target has a readable marker); `Link`, however, removes an existing target
directory regardless of the marker. -/
theorem c2_markerless_invisible_to_unlink_and_stale_scan :
    (∀ fs m, fs.find (m.targetPath ++ [metadataFile]) = none →
      UnlinkModel fs m = .ok fs) ∧
    (∀ fs hf tgt r, r ∈ (FindStaleLinks fs hf tgt).1 →
      exOk (stat fs (r.targetPath ++ [metadataFile])) = true) := by
  constructor
  · exact fun fs m h => unlinkModel_of_find_none h
  · intro fs hf tgt r h
    obtain ⟨q, hq⟩ := findStaleLinks_sound h
    obtain ⟨htp, _, _, _, _, _, _, _, hm, _⟩ := staleCheck_some hq
    subst htp
    exact hm

theorem c2_witness :
    (fsPre.find (m0.targetPath ++ [metadataFile]) = none ∧
      UnlinkModel fsPre m0 = .ok fsPre) ∧
    (staleRecA ∈ (FindStaleLinks fsWalkErr hfRoot lmsRoot).1 ∧
      exOk (stat fsWalkErr (staleRecA.targetPath ++ [metadataFile])) = true) :=
  ⟨⟨by decide, c2_markerless_invisible_to_unlink_and_stale_scan.1 fsPre m0 (by decide)⟩,
   ⟨by decide, c2_markerless_invisible_to_unlink_and_stale_scan.2 fsWalkErr hfRoot
      lmsRoot staleRecA (by decide)⟩⟩

/-- C4 counterexample: a walk error does not discard the stale records found
before the failure: on `fsWalkErr` the scan returns one genuine stale record
together with the permission error from `lms/b`. -/
theorem c4_counterexample :
    FindStaleLinks fsWalkErr hfRoot lmsRoot = ([staleRecA], some .permission) := by
  decide

/-- C4 (amended): walk errors propagate and abort the walk, but the records
accumulated before the failure are returned alongside the error; each of them
is a genuine stale record (readable marker, rebuilt source snapshot path
missing). -/
theorem c4_walk_error_keeps_partial_records (fs : FS) (hf tgt : Path)
    (r : ModelInfo) (h : r ∈ (FindStaleLinks fs hf tgt).1) :
    exOk (stat fs (r.targetPath ++ [metadataFile])) = true ∧
    stat fs r.sourcePath = .error .notExist ∧
    r.isStale = true ∧ r.staleReason = "Source directory not found" := by
  obtain ⟨q, hq⟩ := findStaleLinks_sound h
  obtain ⟨htp, _, _, _, hsp, hstale, _, hreason, hm, hs⟩ := staleCheck_some hq
  subst htp
  exact ⟨hm, by rw [hsp]; exact hs, hstale, hreason⟩

theorem c4_witness :
    staleRecA ∈ (FindStaleLinks fsWalkErr hfRoot lmsRoot).1 ∧
    stat fsWalkErr staleRecA.sourcePath = .error .notExist :=
  ⟨by decide,
   (c4_walk_error_keeps_partial_records fsWalkErr hfRoot lmsRoot staleRecA
      (by decide)).2.1⟩

/-- C8: `Unlink` on a target directory lacking the marker file returns
success and deletes nothing; when the marker is readable it removes the
entire target directory (marker included). -/
theorem c8_unlink_noop_without_marker (fs : FS) (m : ModelInfo) :
    (fs.find (m.targetPath ++ [metadataFile]) = none → UnlinkModel fs m = .ok fs) ∧
    (exOk (stat fs (m.targetPath ++ [metadataFile])) = true →
      UnlinkModel fs m = .ok (removeAll fs m.targetPath) ∧
      ∀ k, m.targetPath.isPrefixOf k = true →
        (removeAll fs m.targetPath).find k = none) :=
  ⟨fun h => unlinkModel_of_find_none h,
   fun h => ⟨unlinkModel_of_stat_ok h,
     fun _ hk => removeAll_find_none fs m.targetPath hk⟩⟩

theorem c8_witness :
    (fsPre.find (m0.targetPath ++ [metadataFile]) = none ∧
      UnlinkModel fsPre m0 = .ok fsPre) ∧
    (exOk (stat fs0link (m0.targetPath ++ [metadataFile])) = true ∧
      UnlinkModel fs0link m0 = .ok (removeAll fs0link m0.targetPath)) :=
  ⟨⟨by decide, (c8_unlink_noop_without_marker fsPre m0).1 (by decide)⟩,
   ⟨by decide, ((c8_unlink_noop_without_marker fs0link m0).2 (by decide)).1⟩⟩

/-- C10: `Unlink` is a silent no-op whenever `os.Stat` of the marker file
fails for any reason (absence, permission, unresolvable link), and deletes
the target directory only when the marker stat succeeds. -/
theorem c10_unlink_noop_on_any_stat_failure (fs : FS) (m : ModelInfo) :
    (∀ e, stat fs (m.targetPath ++ [metadataFile]) = .error e →
      UnlinkModel fs m = .ok fs) ∧
    (exOk (stat fs (m.targetPath ++ [metadataFile])) = true →
      UnlinkModel fs m = .ok (removeAll fs m.targetPath)) :=
  ⟨fun _ he => unlinkModel_of_stat_error he, fun h => unlinkModel_of_stat_ok h⟩

theorem c10_witness :
    fsDeniedMark.find (m0.targetPath ++ [metadataFile]) = some (.file "x") ∧
    stat fsDeniedMark (m0.targetPath ++ [metadataFile]) = .error .permission ∧
    UnlinkModel fsDeniedMark m0 = .ok fsDeniedMark :=
  ⟨by decide, by decide,
   (c10_unlink_noop_on_any_stat_failure fsDeniedMark m0).1 .permission (by decide)⟩

/-! Lemmas about directory listings and `LoadModels`. -/

theorem mem_insertSorted {x a : String} {l : List String} :
    a ∈ insertSorted x l ↔ a = x ∨ a ∈ l := by
  induction l with
  | nil => simp [insertSorted]
  | cons y ys ih =>
    unfold insertSorted
    by_cases h : strLe x y = true
    · rw [if_pos h]
      simp [List.mem_cons]
    · rw [if_neg h]
      simp [List.mem_cons, ih]
      tauto

theorem mem_sortNames {a : String} {l : List String} : a ∈ sortNames l ↔ a ∈ l := by
  induction l with
  | nil => simp [sortNames]
  | cons x xs ih => simp [sortNames, mem_insertSorted, ih]

theorem nodup_insertSorted {x : String} {l : List String} (hx : x ∉ l)
    (hl : l.Nodup) : (insertSorted x l).Nodup := by
  induction l with
  | nil => simp [insertSorted]
  | cons y ys ih =>
    unfold insertSorted
    have hy : y ∉ ys := (List.nodup_cons.1 hl).1
    have hys : ys.Nodup := (List.nodup_cons.1 hl).2
    have hxys : x ∉ ys := fun hc => hx (List.mem_cons_of_mem _ hc)
    by_cases h : strLe x y = true
    · rw [if_pos h]
      exact List.nodup_cons.2 ⟨hx, hl⟩
    · rw [if_neg h]
      refine List.nodup_cons.2 ⟨?_, ih hxys hys⟩
      rw [mem_insertSorted]
      rintro (rfl | hc)
      · exact hx (List.mem_cons_self _ _)
      · exact hy hc

theorem nodup_sortNames {l : List String} (hl : l.Nodup) : (sortNames l).Nodup := by
  induction l with
  | nil => simp [sortNames]
  | cons x xs ih =>
    exact nodup_insertSorted (fun hc => (List.nodup_cons.1 hl).1 (mem_sortNames.1 hc))
      (ih (List.nodup_cons.1 hl).2)

theorem find_mem_entries {fs : FS} {p : Path} {nd : Node} (h : fs.find p = some nd) :
    ∃ e ∈ fs.entries, e.1 = p ∧ e.2 = nd := by
  unfold FS.find at h
  cases hf : fs.entries.find? (fun e => decide (e.1 = p)) with
  | none => rw [hf] at h; simp at h
  | some e =>
    rw [hf] at h
    simp at h
    have hm := List.mem_of_find?_eq_some hf
    have hp := List.find?_some hf
    simp at hp
    exact ⟨e, hm, hp, h⟩

theorem childEntries_mem {fs : FS} {q : Path} {n : String} {nd : Node}
    (h : fs.find (q ++ [n]) = some nd) : (n, nd) ∈ childEntries fs q := by
  obtain ⟨e, hme, he1, _⟩ := find_mem_entries h
  unfold childEntries
  apply List.mem_filterMap.2
  refine ⟨n, ?_, by rw [h]; rfl⟩
  apply mem_sortNames.2
  apply List.mem_dedup.2
  apply List.mem_filterMap.2
  refine ⟨q ++ [n], List.mem_map.2 ⟨e, hme, he1⟩, ?_⟩
  rw [if_pos ⟨List.dropLast_concat, by simp⟩]
  exact List.getLast?_concat _

theorem map_fst_filterMap_nodup (ns : List String)
    (g : String → Option (String × Node))
    (hg : ∀ n p, g n = some p → p.1 = n) (hns : ns.Nodup) :
    ((ns.filterMap g).map (·.1)).Nodup := by
  induction ns with
  | nil => simp
  | cons n rest ih =>
    have h1 : n ∉ rest := (List.nodup_cons.1 hns).1
    have h2 := (List.nodup_cons.1 hns).2
    cases hgn : g n with
    | none => rw [List.filterMap_cons_none hgn]; exact ih h2
    | some p =>
      rw [List.filterMap_cons_some hgn, List.map_cons]
      refine List.nodup_cons.2 ⟨?_, ih h2⟩
      intro hc
      obtain ⟨p', hp', he⟩ := List.mem_map.1 hc
      obtain ⟨n', hn', hg'⟩ := List.mem_filterMap.1 hp'
      have hpn : p.1 = n := hg _ _ hgn
      have hp'n : p'.1 = n' := hg _ _ hg'
      rw [hpn, hp'n] at he
      exact h1 (he ▸ hn')

theorem childEntries_names_nodup (fs : FS) (q : Path) :
    ((childEntries fs q).map (·.1)).Nodup := by
  unfold childEntries
  apply map_fst_filterMap_nodup
  · intro n p hp
    cases hf : fs.find (q ++ [n]) with
    | none => rw [hf] at hp; simp at hp
    | some nd =>
      rw [hf] at hp
      simp at hp
      rw [← hp]
  · exact nodup_sortNames (List.nodup_dedup _)

theorem resolveFuel_succ (fs : FS) (fuel : Nat) (p : Path) :
    resolveFuel fs (fuel + 1) p =
      (if p ∈ fs.denied then .error .permission
       else match fs.find p with
       | some (.symlink t) => resolveFuel fs fuel t
       | some _ => .ok p
       | none => .error .notExist) := rfl

theorem evalSymlinks_plain {fs : FS} {p : Path} {nd : Node} (hd : p ∉ fs.denied)
    (hf : fs.find p = some nd) (hn : ∀ t, nd ≠ Node.symlink t) :
    evalSymlinks fs p = .ok p := by
  calc evalSymlinks fs p = resolveFuel fs (39 + 1) p := rfl
    _ = _ := resolveFuel_succ fs 39 p
    _ = .ok p := by
        rw [if_neg hd, hf]
        cases nd with
        | file c => rfl
        | dir => rfl
        | symlink t => exact absurd rfl (hn t)

theorem readDir_plain_dir {fs : FS} {p : Path} (hd : p ∉ fs.denied)
    (hf : fs.find p = some .dir) : readDir fs p = .ok (childEntries fs p) := by
  unfold readDir
  rw [if_neg hd, evalSymlinks_plain hd hf (by simp)]
  simp [hf]

theorem readDir_ok_names_nodup {fs : FS} {p : Path} {es : List (String × Node)}
    (h : readDir fs p = .ok es) : (es.map (·.1)).Nodup := by
  unfold readDir at h
  by_cases hd : p ∈ fs.denied
  · rw [if_pos hd] at h; exact absurd h (by simp)
  · rw [if_neg hd] at h
    cases he : evalSymlinks fs p with
    | error e => rw [he] at h; exact absurd h (by simp)
    | ok q =>
      rw [he] at h
      dsimp only at h
      cases hfq : fs.find q with
      | none => rw [hfq] at h; exact absurd h (by simp)
      | some nd =>
        rw [hfq] at h
        cases nd with
        | dir =>
          have hes : childEntries fs q = es := by injection h
          rw [← hes]
          exact childEntries_names_nodup fs q
        | file c => exact absurd h (by simp)
        | symlink t => exact absurd h (by simp)

theorem loadModelEntry_some {fs : FS} {hfCache tgt : Path} {n : String}
    {nd : Node} {r : ModelInfo}
    (h : loadModelEntry fs hfCache tgt (n, nd) = some r) :
    nd = Node.dir ∧ r.cacheDirName = n ∧ r.sourcePath = hfCache ++ [n] ∧
    r.targetPath = tgt ++ [r.organizationName, r.modelName] ∧
    ∃ tl, (splitParts n).reverse = r.modelName :: r.organizationName :: tl := by
  unfold loadModelEntry at h
  split at h
  case isTrue hdir =>
    split at h
    case h_1 nm org tl heq =>
      simp only [Option.some.injEq] at h
      subst h
      exact ⟨hdir, rfl, rfl, rfl, tl, heq⟩
    case h_2 => simp at h
  case isFalse => simp at h

theorem loadModelEntry_models {fs : FS} {hfCache tgt : Path}
    {dirName org name : String}
    (hsplit : splitParts dirName = ["models", org, name]) :
    loadModelEntry fs hfCache tgt (dirName, Node.dir) = some
      { cacheDirName := dirName, organizationName := org, modelName := name,
        sourcePath := hfCache ++ [dirName],
        targetPath := tgt ++ [org, name],
        isLinked :=
          if exOk (stat fs ((tgt ++ [org, name]) ++ [metadataFile])) then
            verifySymlinks fs (tgt ++ [org, name])
          else false,
        isStale := false, staleReason := "" } := by
  unfold loadModelEntry
  rw [if_pos rfl, hsplit]
  have hrev : (["models", org, name] : List String).reverse = [name, org, "models"] := by
    simp
  rw [hrev]

theorem countP_name_zero (fs : FS) (hfCache tgt : Path)
    (es : List (String × Node)) (dirName : String)
    (h : ∀ e ∈ es, e.1 ≠ dirName) :
    ((es.filterMap (loadModelEntry fs hfCache tgt)).countP
      (fun r => decide (r.cacheDirName = dirName))) = 0 := by
  induction es with
  | nil => rfl
  | cons e rest ih =>
    have hne := h e (List.mem_cons_self _ _)
    have hrest : ∀ e' ∈ rest, e'.1 ≠ dirName :=
      fun e' he' => h e' (List.mem_cons_of_mem _ he')
    obtain ⟨n, nd⟩ := e
    cases hg : loadModelEntry fs hfCache tgt (n, nd) with
    | none => rw [List.filterMap_cons_none hg]; exact ih hrest
    | some r =>
      rw [List.filterMap_cons_some hg, List.countP_cons]
      have hrn : r.cacheDirName = n := (loadModelEntry_some hg).2.1
      have hpr : decide (r.cacheDirName = dirName) = false := by
        simp [hrn]
        exact hne
      rw [hpr]
      simp [ih hrest]

theorem countP_name_one (fs : FS) (hfCache tgt : Path)
    (es : List (String × Node)) (dirName org name : String)
    (hnd : (es.map (·.1)).Nodup) (hmem : (dirName, Node.dir) ∈ es)
    (hsplit : splitParts dirName = ["models", org, name]) :
    ((es.filterMap (loadModelEntry fs hfCache tgt)).countP
      (fun r => decide (r.cacheDirName = dirName))) = 1 := by
  induction es with
  | nil => simp at hmem
  | cons e rest ih =>
    have hnd' : (e.1 :: rest.map (·.1)).Nodup := by
      rw [List.map_cons] at hnd
      exact hnd
    have hndh : e.1 ∉ rest.map (·.1) := (List.nodup_cons.1 hnd').1
    have hndr : (rest.map (·.1)).Nodup := (List.nodup_cons.1 hnd').2
    rcases List.mem_cons.1 hmem with heq | hrest
    · subst heq
      rw [List.filterMap_cons_some (loadModelEntry_models hsplit),
        List.countP_cons]
      have h0 : ((rest.filterMap (loadModelEntry fs hfCache tgt)).countP
          (fun r => decide (r.cacheDirName = dirName))) = 0 := by
        apply countP_name_zero
        intro e' he' hc
        exact hndh (List.mem_map.2 ⟨e', he', hc⟩)
      rw [h0]
      simp
    · have hname : e.1 ≠ dirName := by
        intro hc
        exact hndh (hc ▸ List.mem_map.2 ⟨(dirName, Node.dir), hrest, rfl⟩)
      obtain ⟨n, nd⟩ := e
      cases hg : loadModelEntry fs hfCache tgt (n, nd) with
      | none => rw [List.filterMap_cons_none hg]; exact ih hndr hrest
      | some r =>
        rw [List.filterMap_cons_some hg, List.countP_cons]
        have hrn : r.cacheDirName = n := (loadModelEntry_some hg).2.1
        have hpr : decide (r.cacheDirName = dirName) = false := by
          simp [hrn]
          exact hname
        rw [hpr]
        simp [ih hndr hrest]

theorem loadModels_ok_eq {fs : FS} {hfCache tgt : Path} {ms : List ModelInfo}
    {es : List (String × Node)}
    (hlm : LoadModels fs hfCache tgt = .ok ms)
    (hrd : readDir fs hfCache = .ok es) :
    ms = es.filterMap (loadModelEntry fs hfCache tgt) := by
  unfold LoadModels at hlm
  cases h1 : stat fs hfCache with
  | error e => rw [h1] at hlm; simp at hlm
  | ok nd1 =>
    rw [h1] at hlm
    cases nd1 with
    | file c => simp at hlm
    | symlink t => simp at hlm
    | dir =>
      cases h2 : stat fs tgt with
      | error e => rw [h2] at hlm; simp at hlm
      | ok nd2 =>
        rw [h2] at hlm
        cases nd2 with
        | file c => simp at hlm
        | symlink t => simp at hlm
        | dir =>
          rw [hrd] at hlm
          simp at hlm
          exact hlm.symm

/-- C6: for every source-root subdirectory named `models--ORG--NAME` (ORG and
NAME free of the `--` separator, i.e. the split is exactly
`["models", ORG, NAME]`), `DiscoverArtifacts` yields exactly one record, with
organization and name taken as the second-to-last and last `--`-separated
segments and `targetPath = targetRoot/ORG/NAME`; entries whose name contains
no `--` (split of length < 2) yield no record. -/
theorem c6_discovery_record_per_artifact_dir (fs : FS) (hfCache tgt : Path)
    (ms : List ModelInfo) (es : List (String × Node)) (dirName org name : String)
    (hlm : LoadModels fs hfCache tgt = .ok ms)
    (hrd : readDir fs hfCache = .ok es)
    (hmem : (dirName, Node.dir) ∈ es)
    (hsplit : splitParts dirName = ["models", org, name]) :
    (ms.countP (fun r => decide (r.cacheDirName = dirName)) = 1 ∧
     ∀ r ∈ ms, r.cacheDirName = dirName →
       r.organizationName = org ∧ r.modelName = name ∧
       r.sourcePath = hfCache ++ [dirName] ∧
       r.targetPath = tgt ++ [org, name]) ∧
    (∀ n nd, (n, nd) ∈ es → (splitParts n).length < 2 →
      ∀ r ∈ ms, r.cacheDirName ≠ n) := by
  have hms := loadModels_ok_eq hlm hrd
  subst hms
  refine ⟨⟨?_, ?_⟩, ?_⟩
  · exact countP_name_one fs hfCache tgt es dirName org name
      (readDir_ok_names_nodup hrd) hmem hsplit
  · intro r hr hname
    obtain ⟨⟨n', nd'⟩, hmem', hg⟩ := List.mem_filterMap.1 hr
    have hsome := loadModelEntry_some hg
    have hn' : n' = dirName := by rw [← hsome.2.1, hname]
    subst hn'
    obtain ⟨_, _, hsp, htp, tl, hrev⟩ := hsome
    rw [hsplit] at hrev
    have hrev' : (["models", org, name] : List String).reverse =
        [name, org, "models"] := by simp
    rw [hrev'] at hrev
    have hnm : r.modelName = name := by
      have := hrev
      injection this with h1 h2
      exact h1.symm
    have horg : r.organizationName = org := by
      injection hrev with h1 h2
      injection h2 with h3 h4
      exact h3.symm
    refine ⟨horg, hnm, hsp, ?_⟩
    rw [htp, horg, hnm]
  · intro n nd hmem' hlen r hr hname
    obtain ⟨⟨n', nd'⟩, hmem'', hg⟩ := List.mem_filterMap.1 hr
    have hsome := loadModelEntry_some hg
    have hn' : n' = n := by rw [← hsome.2.1, hname]
    obtain ⟨_, _, _, _, tl, hrev⟩ := hsome
    have h2l : 2 ≤ (splitParts n').length := by
      have hlenrev : (splitParts n').reverse.length = (splitParts n').length :=
        List.length_reverse _
      rw [hrev] at hlenrev
      simp at hlenrev
      omega
    rw [hn'] at h2l
    omega

theorem c6_witness :
    LoadModels fs0 hfRoot lmsRoot = .ok [m0] ∧
    readDir fs0 hfRoot = .ok [("models--org--model", Node.dir)] ∧
    splitParts "models--org--model" = ["models", "org", "model"] ∧
    [m0].countP (fun r => decide (r.cacheDirName = "models--org--model")) = 1 :=
  ⟨by decide, by decide, by decide,
   (c6_discovery_record_per_artifact_dir fs0 hfRoot lmsRoot [m0]
      [("models--org--model", Node.dir)] "models--org--model" "org" "model"
      (by decide) (by decide) (by decide) (by decide)).1.1⟩

/-! Lemmas about `LinkModel`. -/

theorem lstat_notExist_iff (fs : FS) (p : Path) :
    lstat fs p = .error .notExist ↔ p ∉ fs.denied ∧ fs.find p = none := by
  unfold lstat
  by_cases h : p ∈ fs.denied
  · simp [h]
  · simp only [if_neg h]
    cases hf : fs.find p <;> simp [h, hf]

theorem symlinkOp_ok {fs : FS} {target dst : Path} {fs' : FS}
    (h : symlinkOp fs target dst = .ok fs') :
    fs.find dst = none ∧ dst ∉ fs.denied ∧
    fs' = fs.insertNode dst (.symlink target) := by
  unfold symlinkOp at h
  cases hls : lstat fs dst with
  | ok nd => rw [hls] at h; simp at h
  | error e =>
    rw [hls] at h
    cases e with
    | notExist =>
      obtain ⟨hnd, hnf⟩ := (lstat_notExist_iff fs dst).1 hls
      cases hsp : stat fs dst.dropLast with
      | error e' => rw [hsp] at h; simp at h
      | ok nd =>
        rw [hsp] at h
        cases nd with
        | dir =>
          simp at h
          exact ⟨hnf, hnd, h.symm⟩
        | file c => simp at h
        | symlink t => simp at h
    | permission => simp at h
    | notDir => simp at h
    | isDir => simp at h
    | fileExists => simp at h
    | loop => simp at h
    | invalid => simp at h
    | other msg => simp at h

theorem writeFile_ok {fs : FS} {p : Path} {c : String} {fs' : FS}
    (h : writeFile fs p c = .ok fs') :
    p ∉ fs.denied ∧ fs' = fs.insertNode p (.file c) := by
  unfold writeFile at h
  by_cases hd : p ∈ fs.denied
  · rw [if_pos hd] at h; simp at h
  · rw [if_neg hd] at h
    cases hsp : stat fs p.dropLast with
    | error e => rw [hsp] at h; simp at h
    | ok nd =>
      rw [hsp] at h
      cases nd with
      | file c' => simp at h
      | symlink t => simp at h
      | dir =>
        cases hf : fs.find p with
        | none =>
          rw [hf] at h
          simp at h
          exact ⟨hd, h.symm⟩
        | some nd' =>
          rw [hf] at h
          cases nd' with
          | dir => simp at h
          | file c' => simp at h; exact ⟨hd, h.symm⟩
          | symlink t => simp at h; exact ⟨hd, h.symm⟩

theorem goodTarget_of_evalSymlinks {fs : FS} {p q : Path}
    (h : evalSymlinks fs p = .ok q) : goodTarget fs q :=
  (evalSymlinks_good h).2

theorem goodTarget_insert {fs : FS} {t : Path} (hg : goodTarget fs t)
    {dst : Path} {nd : Node} (hdst : fs.find dst = none) :
    goodTarget (fs.insertNode dst nd) t := by
  obtain ⟨nd', hf, hns⟩ := hg
  refine ⟨nd', ?_, hns⟩
  rw [FS.find_insertNode]
  rw [if_neg (fun hc : t = dst => by rw [hc] at hf; rw [hdst] at hf; cases hf)]
  exact hf

theorem underInv_insert_symlink {fs : FS} {tp : Path} {name : String} {t : Path}
    (hinv : underInv fs tp) (hg : goodTarget fs t)
    (hdst : fs.find (tp ++ [name]) = none) :
    underInv (fs.insertNode (tp ++ [name]) (.symlink t)) tp := by
  intro k nd hf hpref hne
  rw [FS.find_insertNode] at hf
  by_cases hk : k = tp ++ [name]
  · rw [if_pos hk] at hf
    injection hf with hf
    exact ⟨name, t, hk, hf.symm, goodTarget_insert hg hdst⟩
  · rw [if_neg hk] at hf
    obtain ⟨name', t', hkeq, hnd, hgt⟩ := hinv k nd hf hpref hne
    exact ⟨name', t', hkeq, hnd, goodTarget_insert hgt hdst⟩

theorem linkFiles_ok_inv {m : ModelInfo} {snapPath : Path} :
    ∀ (files : List (String × Node)) (fs fs' : FS),
    linkFiles fs m snapPath files = .ok fs' → underInv fs m.targetPath →
    underInv fs' m.targetPath ∧
    (∀ k, (m.targetPath.isPrefixOf k = true → k = m.targetPath) →
      fs'.find k = fs.find k) ∧
    fs'.denied = fs.denied := by
  intro files
  induction files with
  | nil =>
    intro fs fs' h hinv
    simp [linkFiles] at h
    subst h
    exact ⟨hinv, fun k _ => rfl, rfl⟩
  | cons e rest ih =>
    intro fs fs' h hinv
    obtain ⟨fileName, fnd⟩ := e
    rw [linkFiles] at h
    cases hev : evalSymlinks fs (snapPath ++ [fileName]) with
    | error e' => rw [hev] at h; simp at h
    | ok realSource =>
      rw [hev] at h
      dsimp only at h
      cases hsl : symlinkOp fs realSource (m.targetPath ++ [fileName]) with
      | error e' => rw [hsl] at h; simp at h
      | ok fs2 =>
        rw [hsl] at h
        dsimp only at h
        obtain ⟨hdn, hnd, hfs2⟩ := symlinkOp_ok hsl
        have hg : goodTarget fs realSource := goodTarget_of_evalSymlinks hev
        have hinv2 : underInv fs2 m.targetPath := by
          rw [hfs2]
          exact underInv_insert_symlink hinv hg hdn
        obtain ⟨hinv', hloc, hden⟩ := ih fs2 fs' h hinv2
        refine ⟨hinv', ?_, ?_⟩
        · intro k hk
          rw [hloc k hk, hfs2, FS.find_insertNode]
          rw [if_neg ?_]
          intro hkeq
          have : m.targetPath.isPrefixOf k = true := by
            rw [hkeq]; exact isPrefixOf_append _ _
          have hktp := hk this
          rw [hkeq] at hktp
          have hlen := congrArg List.length hktp
          simp only [List.length_append, List.length_cons, List.length_nil] at hlen
          omega
        · rw [hden, hfs2, FS.denied_insertNode]

theorem linkSnapshots_ok_inv {m : ModelInfo} {snapshotsPath : Path} :
    ∀ (snaps : List (String × Node)) (fs fs' : FS),
    linkSnapshots fs m snapshotsPath snaps = .ok fs' → underInv fs m.targetPath →
    underInv fs' m.targetPath ∧
    (∀ k, (m.targetPath.isPrefixOf k = true → k = m.targetPath) →
      fs'.find k = fs.find k) ∧
    fs'.denied = fs.denied := by
  intro snaps
  induction snaps with
  | nil =>
    intro fs fs' h hinv
    simp [linkSnapshots] at h
    subst h
    exact ⟨hinv, fun k _ => rfl, rfl⟩
  | cons e rest ih =>
    intro fs fs' h hinv
    obtain ⟨snapName, snd⟩ := e
    rw [linkSnapshots] at h
    by_cases hdir : snd = Node.dir
    · rw [if_pos hdir] at h
      dsimp only at h
      cases hrd : readDir fs (snapshotsPath ++ [snapName]) with
      | error e' => rw [hrd] at h; simp at h
      | ok files =>
        rw [hrd] at h
        dsimp only at h
        cases hlf : linkFiles fs m (snapshotsPath ++ [snapName]) files with
        | error e' => rw [hlf] at h; simp at h
        | ok fs2 =>
          rw [hlf] at h
          dsimp only at h
          obtain ⟨hinv2, hloc2, hden2⟩ := linkFiles_ok_inv files fs fs2 hlf hinv
          obtain ⟨hinv', hloc', hden'⟩ := ih fs2 fs' h hinv2
          exact ⟨hinv', fun k hk => by rw [hloc' k hk, hloc2 k hk],
            by rw [hden', hden2]⟩
    · rw [if_neg hdir] at h
      exact ih fs fs' h hinv

theorem mkdirAllAux_find :
    ∀ (cs : List String) (fs : FS) (base : Path) (fs' : FS),
    mkdirAllAux fs base cs = .ok fs' →
    ∀ k, fs'.find k = fs.find k ∨
      (k.length ≤ base.length + cs.length ∧ fs'.find k = some Node.dir) := by
  intro cs
  induction cs with
  | nil =>
    intro fs base fs' h k
    simp [mkdirAllAux] at h
    subst h
    exact Or.inl rfl
  | cons c rest ih =>
    intro fs base fs' h k
    rw [mkdirAllAux] at h
    cases hst : stat fs (base ++ [c]) with
    | ok nd =>
      rw [hst] at h
      cases nd with
      | file c' => simp at h
      | symlink t => simp at h
      | dir =>
        rcases ih fs (base ++ [c]) fs' h k with h1 | ⟨h2, h3⟩
        · exact Or.inl h1
        · refine Or.inr ⟨?_, h3⟩
          simp only [List.length_append, List.length_cons, List.length_nil] at h2 ⊢
          omega
    | error e =>
      rw [hst] at h
      cases e with
      | notExist =>
        rcases ih (fs.insertNode (base ++ [c]) .dir) (base ++ [c]) fs' h k
          with h1 | ⟨h2, h3⟩
        · rw [h1, FS.find_insertNode]
          by_cases hk : k = base ++ [c]
          · refine Or.inr ⟨?_, by rw [if_pos hk]⟩
            rw [hk]
            simp only [List.length_append, List.length_cons, List.length_nil]
            omega
          · rw [if_neg hk]
            exact Or.inl rfl
        · refine Or.inr ⟨?_, h3⟩
          simp only [List.length_append, List.length_cons, List.length_nil] at h2 ⊢
          omega
      | permission => simp at h
      | notDir => simp at h
      | isDir => simp at h
      | fileExists => simp at h
      | loop => simp at h
      | invalid => simp at h
      | other msg => simp at h

theorem mkdirAllAux_denied_eq :
    ∀ (cs : List String) (fs : FS) (base : Path) (fs' : FS),
    mkdirAllAux fs base cs = .ok fs' → fs'.denied = fs.denied := by
  intro cs
  induction cs with
  | nil =>
    intro fs base fs' h
    simp [mkdirAllAux] at h
    subst h
    rfl
  | cons c rest ih =>
    intro fs base fs' h
    rw [mkdirAllAux] at h
    cases hst : stat fs (base ++ [c]) with
    | ok nd =>
      rw [hst] at h
      cases nd with
      | file c' => simp at h
      | symlink t => simp at h
      | dir => exact ih fs (base ++ [c]) fs' h
    | error e =>
      rw [hst] at h
      cases e with
      | notExist =>
        rw [ih (fs.insertNode (base ++ [c]) .dir) (base ++ [c]) fs' h]
        rfl
      | permission => simp at h
      | notDir => simp at h
      | isDir => simp at h
      | fileExists => simp at h
      | loop => simp at h
      | invalid => simp at h
      | other msg => simp at h

theorem mkdirAllAux_denied_fail :
    ∀ (cs : List String) (fs : FS) (base : Path), cs ≠ [] →
    (base ++ cs) ∈ fs.denied → ∀ fs', mkdirAllAux fs base cs ≠ .ok fs' := by
  intro cs
  induction cs with
  | nil => intro fs base h; exact absurd rfl h
  | cons c rest ih =>
    intro fs base _ hden fs' h
    rw [mkdirAllAux] at h
    cases rest with
    | nil =>
      have : stat fs (base ++ [c]) = .error .permission :=
        stat_denied (by simpa using hden)
      rw [this] at h
      simp at h
    | cons c2 r2 =>
      cases hst : stat fs (base ++ [c]) with
      | ok nd =>
        rw [hst] at h
        cases nd with
        | file c' => simp at h
        | symlink t => simp at h
        | dir =>
          refine ih fs (base ++ [c]) (by simp) ?_ fs' h
          simpa using hden
      | error e =>
        rw [hst] at h
        cases e with
        | notExist =>
          refine ih (fs.insertNode (base ++ [c]) .dir) (base ++ [c]) (by simp)
            ?_ fs' h
          simpa using hden
        | permission => simp at h
        | notDir => simp at h
        | isDir => simp at h
        | fileExists => simp at h
        | loop => simp at h
        | invalid => simp at h
        | other msg => simp at h

theorem wf_no_strict_under {fs : FS} {tp : Path} (hwf : fs.WF) (hne : tp ≠ [])
    (hfind : fs.find tp ≠ some Node.dir) :
    ∀ k, tp.isPrefixOf k = true → k ≠ tp → fs.find k = none := by
  intro k hpref hknetp
  cases hfk : fs.find k with
  | none => rfl
  | some nd =>
    exfalso
    obtain ⟨e, hme, he1, _⟩ := find_mem_entries hfk
    have hkmem : k ∈ fs.entries.map (·.1) := List.mem_map.2 ⟨e, hme, he1⟩
    have hlt : tp.length < k.length := by
      have hle := length_le_of_isPrefixOf hpref
      rcases Nat.lt_or_ge tp.length k.length with h | h
      · exact h
      · exact absurd (eq_of_isPrefixOf_of_length hpref h) (fun hc => hknetp hc.symm)
    have h0 : 0 < tp.length := List.length_pos.2 hne
    have := hwf.2 k hkmem tp.length (List.mem_range.2 hlt) h0
    obtain ⟨t, rfl⟩ := (isPrefixOf_iff_exists tp k).1 hpref
    rw [List.take_left] at this
    exact hfind this

theorem linkModel_ok_destruct {fs : FS} {m : ModelInfo} {now : String} {fs' : FS}
    (h : LinkModel fs m now = .ok fs') :
    ∃ snapshotDirs fs2 fs3,
      readDir fs (m.sourcePath ++ [snapshotsDir]) = .ok snapshotDirs ∧
      mkdirAll (if exOk (stat fs m.targetPath) then removeAll fs m.targetPath
        else fs) m.targetPath = .ok fs2 ∧
      linkSnapshots fs2 m (m.sourcePath ++ [snapshotsDir]) snapshotDirs = .ok fs3 ∧
      writeFile fs3 (m.targetPath ++ [metadataFile]) now = .ok fs' := by
  unfold LinkModel at h
  cases h1 : stat fs m.sourcePath with
  | error e => rw [h1] at h; simp at h
  | ok nd1 =>
    rw [h1] at h
    cases nd1 with
    | file c => simp at h
    | symlink t => simp at h
    | dir =>
      dsimp only at h
      cases h2 : stat fs (m.sourcePath ++ [snapshotsDir]) with
      | error e => rw [h2] at h; simp at h
      | ok nd2 =>
        rw [h2] at h
        cases nd2 with
        | file c => simp at h
        | symlink t => simp at h
        | dir =>
          cases h3 : readDir fs (m.sourcePath ++ [snapshotsDir]) with
          | error e => rw [h3] at h; simp at h
          | ok snapshotDirs =>
            rw [h3] at h
            dsimp only at h
            cases h4 : mkdirAll (if exOk (stat fs m.targetPath) then
                removeAll fs m.targetPath else fs) m.targetPath with
            | error e => rw [h4] at h; simp at h
            | ok fs2 =>
              rw [h4] at h
              dsimp only at h
              cases h5 : linkSnapshots fs2 m (m.sourcePath ++ [snapshotsDir])
                  snapshotDirs with
              | error e => rw [h5] at h; simp at h
              | ok fs3 =>
                rw [h5] at h
                exact ⟨snapshotDirs, fs2, fs3, rfl, rfl, h5, h⟩

/-- C7: after a successful `Link`, `Unlink` on the same record succeeds and
removes the whole target directory: no path below the target directory
remains stored. -/
theorem c7_link_unlink_round_trip (fs : FS) (m : ModelInfo) (now : String)
    (fs' : FS) (h : LinkModel fs m now = .ok fs') :
    UnlinkModel fs' m = .ok (removeAll fs' m.targetPath) ∧
    ∀ k, m.targetPath.isPrefixOf k = true →
      (removeAll fs' m.targetPath).find k = none := by
  obtain ⟨sd, fs2, fs3, _, _, _, hw⟩ := linkModel_ok_destruct h
  obtain ⟨hdenied, hfs'⟩ := writeFile_ok hw
  have hfind : fs'.find (m.targetPath ++ [metadataFile]) = some (.file now) := by
    rw [hfs', FS.find_insertNode, if_pos rfl]
  have hnd : (m.targetPath ++ [metadataFile]) ∉ fs'.denied := by
    rw [hfs', FS.denied_insertNode]
    exact hdenied
  have hst := stat_of_find_not_symlink hfind (by simp) hnd
  have hok : exOk (stat fs' (m.targetPath ++ [metadataFile])) = true := by
    rw [hst]; rfl
  exact ⟨unlinkModel_of_stat_ok hok,
    fun k hk => removeAll_find_none fs' m.targetPath hk⟩

theorem c7_witness :
    LinkModel fs0 m0 linkTs = .ok fs0link ∧
    UnlinkModel fs0link m0 = .ok (removeAll fs0link m0.targetPath) ∧
    (removeAll fs0link m0.targetPath).find m0.targetPath = none :=
  ⟨by decide,
   (c7_link_unlink_round_trip fs0 m0 linkTs fs0link (by decide)).1,
   (c7_link_unlink_round_trip fs0 m0 linkTs fs0link (by decide)).2
     m0.targetPath (by decide)⟩

/-- C3: after a successful `Link`, the marker file exists in the target
directory containing the link timestamp, and every other entry stored under
the target directory is an immediate child holding a symbolic link whose
stored target is an existing non-symlink node — the fully resolved real
path.  (`m.targetPath ≠ []` excludes the degenerate empty path, which
`filepath.Join` never produces.) -/
theorem c3_link_populates_target_with_resolved_links (fs : FS) (m : ModelInfo)
    (now : String) (fs' : FS) (hwf : fs.WF) (hne : m.targetPath ≠ [])
    (h : LinkModel fs m now = .ok fs') :
    fs'.find (m.targetPath ++ [metadataFile]) = some (.file now) ∧
    ∀ k nd, fs'.find k = some nd → m.targetPath.isPrefixOf k = true →
      k ≠ m.targetPath → k ≠ m.targetPath ++ [metadataFile] →
      ∃ name t, k = m.targetPath ++ [name] ∧ nd = Node.symlink t ∧
        ∃ nd', fs'.find t = some nd' ∧ ∀ u, nd' ≠ Node.symlink u := by
  obtain ⟨sd, fs2, fs3, hrd, hmk, hls, hw⟩ := linkModel_ok_destruct h
  obtain ⟨hdeniedW, hfs'⟩ := writeFile_ok hw
  have h1clean : ∀ k, m.targetPath.isPrefixOf k = true → k ≠ m.targetPath →
      (if exOk (stat fs m.targetPath) then removeAll fs m.targetPath
       else fs).find k = none := by
    intro k hpref hknetp
    by_cases hex : exOk (stat fs m.targetPath) = true
    · rw [if_pos hex, FS.find_removeAll, if_pos hpref]
    · rw [if_neg hex]
      rw [if_neg hex] at hmk
      have hstat : ∃ e, stat fs m.targetPath = .error e := by
        cases hst : stat fs m.targetPath with
        | ok nd => exact absurd (by rw [hst]; rfl) hex
        | error e => exact ⟨e, rfl⟩
      have hndden : m.targetPath ∉ fs.denied := by
        intro hden
        exact mkdirAllAux_denied_fail m.targetPath fs [] hne
          (by simpa using hden) fs2 hmk
      have hfnd : fs.find m.targetPath ≠ some Node.dir := by
        intro hc
        obtain ⟨e, he⟩ := hstat
        rw [stat_of_find_not_symlink hc (by simp) hndden] at he
        cases he
      exact wf_no_strict_under hwf hne hfnd k hpref hknetp
  have h2clean : ∀ k, m.targetPath.isPrefixOf k = true → k ≠ m.targetPath →
      fs2.find k = none := by
    intro k hpref hknetp
    rcases mkdirAllAux_find m.targetPath _ [] fs2 hmk k with h1 | ⟨h2, _⟩
    · rw [h1]
      exact h1clean k hpref hknetp
    · exfalso
      have hlt : m.targetPath.length < k.length := by
        have hle := length_le_of_isPrefixOf hpref
        rcases Nat.lt_or_ge m.targetPath.length k.length with hlt | hge
        · exact hlt
        · exact absurd (eq_of_isPrefixOf_of_length hpref hge)
            (fun hc => hknetp hc.symm)
      simp only [List.length_nil] at h2
      omega
  have hinv2 : underInv fs2 m.targetPath := by
    intro k nd hf hpref hknetp
    rw [h2clean k hpref hknetp] at hf
    cases hf
  obtain ⟨hinv3, hloc3, hden3⟩ := linkSnapshots_ok_inv sd fs2 fs3 hls hinv2
  constructor
  · rw [hfs', FS.find_insertNode, if_pos rfl]
  · intro k nd hf hpref hknetp hknem
    rw [hfs', FS.find_insertNode, if_neg hknem] at hf
    obtain ⟨name, t, hkeq, hndeq, hgt⟩ := hinv3 k nd hf hpref hknetp
    refine ⟨name, t, hkeq, hndeq, ?_⟩
    obtain ⟨nd', hft, hns⟩ := hgt
    have htm : t ≠ m.targetPath ++ [metadataFile] := by
      intro hteq
      subst hteq
      have hmp : (m.targetPath ++ [metadataFile]) ≠ m.targetPath := by
        intro hc
        have hlen := congrArg List.length hc
        simp only [List.length_append, List.length_cons, List.length_nil] at hlen
        omega
      obtain ⟨name2, t2, _, hnd2, _⟩ := hinv3 _ nd' hft
        (isPrefixOf_append _ _) hmp
      exact hns t2 hnd2
    refine ⟨nd', ?_, hns⟩
    rw [hfs', FS.find_insertNode, if_neg htm]
    exact hft

theorem c3_witness :
    fs0.WF ∧ m0.targetPath ≠ [] ∧ LinkModel fs0 m0 linkTs = .ok fs0link ∧
    fs0link.find (m0.targetPath ++ [metadataFile]) = some (.file linkTs) :=
  ⟨by decide, by decide, by decide,
   (c3_link_populates_target_with_resolved_links fs0 m0 linkTs fs0link
      (by decide) (by decide) (by decide)).1⟩


/-! Completeness of the `FindStaleLinks` walk: when the walk finishes without
error, every reachable marker-bearing directory with a missing rebuilt
source snapshot path is reported. -/

theorem foldr_max_of_mem {l : List (Path × Node)} {e : Path × Node}
    (hme : e ∈ l) :
    e.1.length ≤ l.foldr (fun e acc => max e.1.length acc) 0 := by
  induction l with
  | nil => simp at hme
  | cons x xs ih =>
    rcases List.mem_cons.1 hme with rfl | hxs
    · simp only [List.foldr_cons]
      exact le_max_left _ _
    · simp only [List.foldr_cons]
      exact le_trans (ih hxs) (le_max_right _ _)

theorem length_le_fsMaxKeyLen {fs : FS} {p : Path} {nd : Node}
    (h : fs.find p = some nd) : p.length ≤ fsMaxKeyLen fs := by
  obtain ⟨e, hme, he1, _⟩ := find_mem_entries h
  rw [← he1]
  exact foldr_max_of_mem hme

theorem walkAux_dir_eq (fs : FS) (hf : Path) (fuel : Nat) (p : Path) :
    walkAux fs hf (fuel + 1) p Node.dir =
      match readDir fs p with
      | .error e => ((staleCheck fs hf p).toList, some e)
      | .ok entries =>
        ((staleCheck fs hf p).toList ++
          (walkEntriesWith (fun q nd => walkAux fs hf fuel q nd) p entries).1,
         (walkEntriesWith (fun q nd => walkAux fs hf fuel q nd) p entries).2) := rfl

theorem walkEntriesWith_complete
    {f : Path → Node → List ModelInfo × Option FsError} {p : Path}
    {l : List (String × Node)}
    (h : (walkEntriesWith f p l).2 = none) {n : String} {nd : Node}
    (hmem : (n, nd) ∈ l) :
    (f (p ++ [n]) nd).2 = none ∧
    ∀ r ∈ (f (p ++ [n]) nd).1, r ∈ (walkEntriesWith f p l).1 := by
  induction l with
  | nil => simp at hmem
  | cons e rest ih =>
    obtain ⟨n2, nd2⟩ := e
    cases hfr : f (p ++ [n2]) nd2 with
    | mk recs err =>
      cases err with
      | some e2 =>
        rw [walkEntriesWith, hfr] at h
        simp at h
      | none =>
        rw [walkEntriesWith, hfr] at h
        dsimp only at h
        rcases List.mem_cons.1 hmem with heq | hmemrest
        · injection heq with h1 h2
          subst h1
          subst h2
          refine ⟨by rw [hfr], ?_⟩
          intro r hr
          rw [walkEntriesWith, hfr]
          dsimp only
          rw [hfr] at hr
          exact List.mem_append.2 (Or.inl hr)
        · obtain ⟨hnone, hsub⟩ := ih h hmemrest
          refine ⟨hnone, ?_⟩
          intro r hr
          rw [walkEntriesWith, hfr]
          dsimp only
          exact List.mem_append.2 (Or.inr (hsub r hr))

theorem walkAux_complete {fs : FS} {hf : Path} :
    ∀ (fuel : Nat) (p q : Path),
    (walkAux fs hf fuel p Node.dir).2 = none →
    (∀ i, p.length ≤ i → i ≤ q.length → fs.find (q.take i) = some Node.dir) →
    q.take p.length = p →
    q.length < p.length + fuel →
    ∀ r, staleCheck fs hf q = some r →
      r ∈ (walkAux fs hf fuel p Node.dir).1 := by
  intro fuel
  induction fuel with
  | zero =>
    intro p q herr hdirs htake hlen r hsc
    exfalso
    rcases le_or_lt p.length q.length with hle | hlt
    · omega
    · have hq : q.take p.length = q := List.take_of_length_le (Nat.le_of_lt hlt)
      have hpq : p = q := htake.symm.trans hq
      rw [hpq] at hlen
      omega
  | succ fuel ih =>
    intro p q herr hdirs htake hlen r hsc
    have hple : p.length ≤ q.length := by
      rcases le_or_lt p.length q.length with hle | hlt
      · exact hle
      · have hq : q.take p.length = q := List.take_of_length_le (Nat.le_of_lt hlt)
        have hpq : p = q := htake.symm.trans hq
        rw [hpq]
    have hfp : fs.find p = some Node.dir := by
      have h1 := hdirs p.length (le_refl _) hple
      rw [htake] at h1
      exact h1
    cases hrd : readDir fs p with
    | error e =>
      rw [walkAux_dir_eq, hrd] at herr
      simp at herr
    | ok entries =>
      rw [walkAux_dir_eq, hrd] at herr ⊢
      dsimp only at herr ⊢
      by_cases hq : q.length = p.length
      · have hqtake : q.take p.length = q := by
          rw [← hq]
          exact List.take_length q
        have hqp : q = p := hqtake.symm.trans htake
        subst hqp
        apply List.mem_append.2
        left
        rw [hsc]
        exact List.mem_singleton_self r
      · have hplt : p.length < q.length :=
          Nat.lt_of_le_of_ne hple (fun hc => hq hc.symm)
        have hge : q[p.length]? = some q[p.length] :=
          List.getElem?_eq_getElem hplt
        have htake1 : q.take (p.length + 1) = p ++ [q[p.length]] := by
          rw [List.take_succ, htake, hge]
          rfl
        have hfchild : fs.find (p ++ [q[p.length]]) = some Node.dir := by
          have h1 := hdirs (p.length + 1) (by omega) (by omega)
          rw [htake1] at h1
          exact h1
        have hrdeq : readDir fs p = .ok (childEntries fs p) := by
          by_cases hdenp : p ∈ fs.denied
          · exact absurd hrd (by unfold readDir; rw [if_pos hdenp]; simp)
          · exact readDir_plain_dir hdenp hfp
        have hentries : entries = childEntries fs p := by
          have h1 := hrdeq.symm.trans hrd
          injection h1 with h2
          exact h2.symm
        have hmem : (q[p.length], Node.dir) ∈ entries := by
          rw [hentries]
          exact childEntries_mem hfchild
        obtain ⟨hnone, hsub⟩ := walkEntriesWith_complete herr hmem
        have hchild := ih (p ++ [q[p.length]]) q hnone ?_ ?_ ?_ r hsc
        · exact List.mem_append.2 (Or.inr (hsub r hchild))
        · intro i hi1 hi2
          refine hdirs i ?_ hi2
          simp only [List.length_append, List.length_cons, List.length_nil] at hi1
          omega
        · simp only [List.length_append, List.length_cons, List.length_nil]
          exact htake1
        · simp only [List.length_append, List.length_cons, List.length_nil]
          omega

/-- C5 counterexample: the rebuilt cache-directory name does not preserve the
original provider prefix.  An artifact linked from `spaces--org--model`
(whose source still exists) is reported stale, because the walk rebuilds the
name with the fixed literal prefix `models--`. -/
theorem c5_counterexample :
    LinkModel fsSp mSpaces linkTs = .ok fsSpLink ∧
    stat fsSpLink ["hf", "spaces--org--model", "snapshots"] = .ok .dir ∧
    FindStaleLinks fsSpLink hfRoot lmsRoot = ([spStaleRec], none) ∧
    spStaleRec.cacheDirName = "models--org--model" ∧
    mSpaces.cacheDirName = "spaces--org--model" :=
  ⟨by decide, by decide, by decide, by decide, by decide⟩

/-- C5 (amended): for every marker-bearing target directory at
`targetRoot/ORG/NAME` reachable by a walk that completes without error, the
expected source cache-directory name is rebuilt as `models--ORG--NAME` — with
the fixed literal prefix `models`, regardless of the original provider prefix
— and the directory is reported stale exactly when the rebuilt source
snapshot path does not exist. -/
theorem c5_stale_iff_rebuilt_models_source_missing (fs : FS) (hf tgt : Path)
    (recs : List ModelInfo) (org name : String)
    (hwalk : FindStaleLinks fs hf tgt = (recs, none))
    (htgt : fs.find tgt = some Node.dir)
    (horg : fs.find (tgt ++ [org]) = some Node.dir)
    (hdir : fs.find (tgt ++ [org, name]) = some Node.dir)
    (hmark : exOk (stat fs ((tgt ++ [org, name]) ++ [metadataFile])) = true) :
    (∃ r ∈ recs, r.targetPath = tgt ++ [org, name] ∧
        r.cacheDirName = "models--" ++ org ++ "--" ++ name) ↔
      stat fs (hf ++ ["models--" ++ org ++ "--" ++ name, snapshotsDir]) =
        .error .notExist := by
  have hassoc : tgt ++ [org, name] = (tgt ++ [org]) ++ [name] := by simp
  have hbase1 : baseName (tgt ++ [org, name]) = name := by
    rw [hassoc]
    unfold baseName
    rw [List.getLast?_concat]
    rfl
  have hdrop : (tgt ++ [org, name]).dropLast = tgt ++ [org] := by
    rw [hassoc]
    exact List.dropLast_concat
  have hbase2 : baseName (tgt ++ [org, name]).dropLast = org := by
    rw [hdrop]
    unfold baseName
    rw [List.getLast?_concat]
    rfl
  constructor
  · rintro ⟨r, hrmem, hrtp, hrcd⟩
    have hmem : r ∈ (FindStaleLinks fs hf tgt).1 := by
      rw [hwalk]
      exact hrmem
    obtain ⟨q, hq⟩ := findStaleLinks_sound hmem
    obtain ⟨htp, _, _, _, _, _, _, _, _, hs⟩ := staleCheck_some hq
    rw [hrcd] at hs
    exact hs
  · intro hstat
    have hsc := @staleCheck_eq_some_of fs hf (tgt ++ [org, name]) hmark
      (by rw [hbase2, hbase1]; exact hstat)
    unfold FindStaleLinks at hwalk
    cases hls : lstat fs tgt with
    | error e =>
      rw [hls] at hwalk
      simp at hwalk
    | ok node =>
      rw [hls] at hwalk
      obtain ⟨hnden, hfind⟩ := (lstat_eq_ok_iff fs tgt node).1 hls
      have hnode : node = Node.dir := by
        rw [htgt] at hfind
        injection hfind with h1
        exact h1.symm
      subst hnode
      dsimp only at hwalk
      have h2 : (walkAux fs hf (fsMaxKeyLen fs + 1) tgt Node.dir).2 = none := by
        rw [hwalk]
      have hqlen : (tgt ++ [org, name]).length = tgt.length + 2 := by
        simp
      have hcomp := walkAux_complete (fsMaxKeyLen fs + 1) tgt
        (tgt ++ [org, name]) h2 ?_ ?_ ?_ _ hsc
      · exact ⟨_, by rw [hwalk] at hcomp; exact hcomp, rfl, by
          show "models--" ++ baseName (tgt ++ [org, name]).dropLast ++ "--" ++
            baseName (tgt ++ [org, name]) = "models--" ++ org ++ "--" ++ name
          rw [hbase2, hbase1]⟩
      · intro i hi1 hi2
        rw [hqlen] at hi2
        have : i = tgt.length ∨ i = tgt.length + 1 ∨ i = tgt.length + 2 := by
          omega
        rcases this with rfl | rfl | rfl
        · rw [List.take_left]
          exact htgt
        · have h3 : (tgt ++ [org, name]).take (tgt.length + 1) = tgt ++ [org] := by
            rw [List.take_append]
            rfl
          rw [h3]
          exact horg
        · have h3 : (tgt ++ [org, name]).take (tgt.length + 2) =
              tgt ++ [org, name] := by
            rw [List.take_append]
            rfl
          rw [h3]
          exact hdir
      · exact List.take_left tgt [org, name]
      · have hle := length_le_fsMaxKeyLen hdir
        rw [hqlen] at hle ⊢
        omega

theorem c5_witness :
    FindStaleLinks fsSpLink hfRoot lmsRoot = ([spStaleRec], none) ∧
    stat fsSpLink (hfRoot ++ ["models--" ++ "org" ++ "--" ++ "model",
      snapshotsDir]) = .error .notExist ∧
    (∃ r ∈ [spStaleRec], r.targetPath = lmsRoot ++ ["org", "model"] ∧
      r.cacheDirName = "models--" ++ "org" ++ "--" ++ "model") :=
  ⟨by decide, by decide,
   (c5_stale_iff_rebuilt_models_source_missing fsSpLink hfRoot lmsRoot
      [spStaleRec] "org" "model" (by decide) (by decide) (by decide)
      (by decide) (by decide)).2 (by decide)⟩

/-! Lemmas about the aggregate loops. -/

theorem foldl_count_shift (step : FS × Nat → ModelInfo → FS × Nat)
    (hstep : ∀ st m, step st m =
      ((step (st.1, 0) m).1, st.2 + (step (st.1, 0) m).2)) :
    ∀ (l : List ModelInfo) (fs : FS) (c : Nat),
      List.foldl step (fs, c) l =
        ((List.foldl step (fs, 0) l).1, c + (List.foldl step (fs, 0) l).2) := by
  intro l
  induction l with
  | nil =>
    intro fs c
    simp
  | cons m rest ih =>
    intro fs c
    rw [List.foldl_cons, List.foldl_cons, hstep (fs, c) m, hstep (fs, 0) m]
    cases hs : step (fs, 0) m with
    | mk fs2 c2 =>
      dsimp only
      simp only [Nat.zero_add]
      rw [ih fs2 (c + c2), ih fs2 c2]
      cases hrest : List.foldl step (fs2, 0) rest with
      | mk fs3 c3 =>
        dsimp only
        rw [Nat.add_assoc]

theorem linkStep_shift (now : String) :
    ∀ st m, linkStep now st m =
      ((linkStep now (st.1, 0) m).1, st.2 + (linkStep now (st.1, 0) m).2) := by
  intro st m
  obtain ⟨fs, c⟩ := st
  unfold linkStep
  by_cases hl : m.isLinked = false
  · rw [if_pos hl, if_pos hl]
    cases hlm : LinkModel fs m now <;> rfl
  · rw [if_neg hl, if_neg hl]
    simp

theorem unlinkStep_shift :
    ∀ st m, unlinkStep st m =
      ((unlinkStep (st.1, 0) m).1, st.2 + (unlinkStep (st.1, 0) m).2) := by
  intro st m
  obtain ⟨fs, c⟩ := st
  unfold unlinkStep
  by_cases hl : m.isLinked = true
  · rw [if_pos hl, if_pos hl]
    cases hlm : UnlinkModel fs m <;> rfl
  · rw [if_neg hl, if_neg hl]
    simp

theorem purgeStep_shift :
    ∀ st m, purgeStep st m =
      ((purgeStep (st.1, 0) m).1, st.2 + (purgeStep (st.1, 0) m).2) := by
  intro st m
  obtain ⟨fs, c⟩ := st
  unfold purgeStep
  cases hlm : UnlinkModel fs m <;> rfl

/-- C9: each aggregate loop iterates its input sequentially and never aborts:
a record failing the operation precondition (`isLinked` for LinkAll and
UnlinkAll) is skipped with state and count unchanged, a per-item error leaves
state and count unchanged and the loop continues with the remaining records,
and a per-item success advances the filesystem state and increments the
success count by one (PurgeAll applies Unlink to every record). -/
theorem c9_aggregate_ops_filter_count_and_tolerate_errors (fs : FS)
    (now : String) (m : ModelInfo) (rest : List ModelInfo) :
    (m.isLinked = true → linkAllCmd fs (m :: rest) now = linkAllCmd fs rest now) ∧
    (∀ e, m.isLinked = false → LinkModel fs m now = .error e →
      linkAllCmd fs (m :: rest) now = linkAllCmd fs rest now) ∧
    (∀ fs2, m.isLinked = false → LinkModel fs m now = .ok fs2 →
      linkAllCmd fs (m :: rest) now =
        ((linkAllCmd fs2 rest now).1, (linkAllCmd fs2 rest now).2 + 1)) ∧
    (m.isLinked = false → unlinkAllCmd fs (m :: rest) = unlinkAllCmd fs rest) ∧
    (∀ fs2, m.isLinked = true → UnlinkModel fs m = .ok fs2 →
      unlinkAllCmd fs (m :: rest) =
        ((unlinkAllCmd fs2 rest).1, (unlinkAllCmd fs2 rest).2 + 1)) ∧
    (∀ fs2, UnlinkModel fs m = .ok fs2 →
      purgeAllCmd fs (m :: rest) =
        ((purgeAllCmd fs2 rest).1, (purgeAllCmd fs2 rest).2 + 1)) := by
  refine ⟨?_, ?_, ?_, ?_, ?_, ?_⟩
  · intro hl
    unfold linkAllCmd
    rw [List.foldl_cons]
    have hstep : linkStep now (fs, 0) m = (fs, 0) := by
      unfold linkStep
      rw [if_neg (by rw [hl]; simp)]
    rw [hstep]
  · intro e hl herr
    unfold linkAllCmd
    rw [List.foldl_cons]
    have hstep : linkStep now (fs, 0) m = (fs, 0) := by
      unfold linkStep
      rw [if_pos hl, herr]
    rw [hstep]
  · intro fs2 hl hok
    unfold linkAllCmd
    rw [List.foldl_cons]
    have hstep : linkStep now (fs, 0) m = (fs2, 1) := by
      unfold linkStep
      rw [if_pos hl, hok]
    rw [hstep, foldl_count_shift (linkStep now) (linkStep_shift now) rest fs2 1]
    rw [Nat.add_comm]
  · intro hl
    unfold unlinkAllCmd
    rw [List.foldl_cons]
    have hstep : unlinkStep (fs, 0) m = (fs, 0) := by
      unfold unlinkStep
      rw [if_neg (by rw [hl]; simp)]
    rw [hstep]
  · intro fs2 hl hok
    unfold unlinkAllCmd
    rw [List.foldl_cons]
    have hstep : unlinkStep (fs, 0) m = (fs2, 1) := by
      unfold unlinkStep
      rw [if_pos hl, hok]
    rw [hstep, foldl_count_shift unlinkStep unlinkStep_shift rest fs2 1]
    rw [Nat.add_comm]
  · intro fs2 hok
    unfold purgeAllCmd
    rw [List.foldl_cons]
    have hstep : purgeStep (fs, 0) m = (fs2, 1) := by
      unfold purgeStep
      rw [hok]
    rw [hstep, foldl_count_shift purgeStep purgeStep_shift rest fs2 1]
    rw [Nat.add_comm]

theorem c9_witness :
    (m0linked.isLinked = true ∧
      linkAllCmd fs0 (m0linked :: [mBad]) linkTs = linkAllCmd fs0 [mBad] linkTs) ∧
    (mBad.isLinked = false ∧
      LinkModel fs0 mBad linkTs =
        .error (.other "source path does not exist or is not a directory") ∧
      linkAllCmd fs0 (mBad :: [m0]) linkTs = linkAllCmd fs0 [m0] linkTs) ∧
    (LinkModel fs0 m0 linkTs = .ok fs0link ∧
      linkAllCmd fs0 (m0 :: []) linkTs =
        ((linkAllCmd fs0link [] linkTs).1, (linkAllCmd fs0link [] linkTs).2 + 1)) ∧
    (UnlinkModel fs0link m0linked = .ok (removeAll fs0link m0linked.targetPath) ∧
      unlinkAllCmd fs0link (m0linked :: []) =
        ((unlinkAllCmd (removeAll fs0link m0linked.targetPath) []).1,
         (unlinkAllCmd (removeAll fs0link m0linked.targetPath) []).2 + 1)) ∧
    purgeAllCmd fs0link (m0 :: []) =
      ((purgeAllCmd (removeAll fs0link m0.targetPath) []).1,
       (purgeAllCmd (removeAll fs0link m0.targetPath) []).2 + 1) :=
  ⟨⟨by decide,
    (c9_aggregate_ops_filter_count_and_tolerate_errors fs0 linkTs m0linked
      [mBad]).1 (by decide)⟩,
   ⟨by decide, by decide,
    (c9_aggregate_ops_filter_count_and_tolerate_errors fs0 linkTs mBad
      [m0]).2.1 (.other "source path does not exist or is not a directory")
      (by decide) (by decide)⟩,
   ⟨by decide,
    (c9_aggregate_ops_filter_count_and_tolerate_errors fs0 linkTs m0
      []).2.2.1 fs0link (by decide) (by decide)⟩,
   ⟨by decide,
    (c9_aggregate_ops_filter_count_and_tolerate_errors fs0link linkTs m0linked
      []).2.2.2.2.1 (removeAll fs0link m0linked.targetPath) (by decide)
      (by decide)⟩,
   (c9_aggregate_ops_filter_count_and_tolerate_errors fs0link linkTs m0
      []).2.2.2.2.2 (removeAll fs0link m0.targetPath) (by decide)⟩

end HfLmsSync
